import Mathlib

/-!
Shallow embedding of the rdiff library (src/lib.rs, src/window.rs,
src/hashing.rs, src/string_diff.rs) and proofs about its behaviour.

Modelling conventions: byte streams are `List Nat` (values below 256
where it matters), a `Read` source is the list of bytes not yet
consumed (reads return as many bytes as are available, as for a
`Cursor`), `u16` wrap-around arithmetic is `ZMod 65536`, and fallible
or panicking code returns an `Outcome`.
-/

set_option maxHeartbeats 1000000

namespace Rdiff

/-- Result of running a piece of Rust code: a returned value, an `Err`
return, or a thread panic. -/
inductive Outcome (α : Type) where
  | ok (val : α)
  | error
  | panic
deriving DecidableEq, Repr

/-- State of the weak rolling hash (`struct RollingHash` in
src/hashing.rs).  All three `u16` fields wrap modulo 2^16. -/
structure RollingHash where
  a : ZMod 65536
  b : ZMod 65536
  block_size : ZMod 65536
deriving DecidableEq, Repr

/-- `RollingHash::new`: fold the initial window into the hash state. -/
def RollingHash.new (initial_data : List Nat) : RollingHash :=
  initial_data.foldl
    (fun (s : RollingHash) (byte : Nat) =>
      ⟨s.a + (byte : ZMod 65536), s.b + (s.a + (byte : ZMod 65536)), s.block_size + 1⟩)
    ⟨0, 0, 0⟩

/-- `RollingHash::get_hash`: `(b as u32) << 16 | a as u32`. -/
def RollingHash.get_hash (h : RollingHash) : Nat :=
  h.b.val * 65536 + h.a.val

/-- `RollingHash::roll_hash`: remove `old_byte`, append `new_byte` when
present, otherwise shrink the window. -/
def RollingHash.roll_hash (h : RollingHash) (new_byte : Option Nat) (old_byte : Nat) :
    RollingHash :=
  let a := h.a - (old_byte : ZMod 65536)
  let b := h.b - (old_byte : ZMod 65536) * h.block_size
  match new_byte with
  | some nb => ⟨a + (nb : ZMod 65536), b + (a + (nb : ZMod 65536)), h.block_size⟩
  | none => ⟨a, b, h.block_size - 1⟩

/-- `RollingHash::hash_buffer`: the weak hash of a whole buffer. -/
def RollingHash.hash_buffer (buffer : List Nat) : Nat :=
  let s := buffer.foldl
    (fun (p : ZMod 65536 × ZMod 65536) (byte : Nat) =>
      (p.1 + (byte : ZMod 65536), p.2 + (p.1 + (byte : ZMod 65536))))
    ((0, 0) : ZMod 65536 × ZMod 65536)
  s.2.val * 65536 + s.1.val

/-- Sliding window over a byte stream (`struct Window` in src/lib.rs,
methods in src/window.rs).  `reader` is the list of bytes not yet pulled
into the two buffers. -/
structure Window where
  front : List Nat
  back : List Nat
  block_size : Nat
  offset : Nat
  bytes_read : Nat
  reader : List Nat
deriving DecidableEq, Repr

/-- `Window::new`: fill `front` then `back` with up to `block_size` bytes
each. -/
def Window.new (reader : List Nat) (block_size : Nat) : Window :=
  { front := reader.take block_size
    back := (reader.drop block_size).take block_size
    block_size := block_size
    offset := 0
    bytes_read := 0
    reader := (reader.drop block_size).drop block_size }

/-- `Window::get_head`. -/
def Window.get_head (w : Window) : Option Nat :=
  let head_index := w.offset + w.block_size - w.front.length
  if head_index < w.back.length then some (w.back.getD head_index 0) else none

/-- `Window::load_next_block`: promote `back` to `front` and refill `back`
from the reader. -/
def Window.load_next_block (w : Window) : Window :=
  { front := w.back
    back := w.reader.take w.block_size
    block_size := w.block_size
    offset := 0
    bytes_read := w.bytes_read
    reader := w.reader.drop w.block_size }

/-- The tail of `Window::advance` once the buffers are in place: pull the
tail and head bytes and move the offset forward. -/
def Window.advance_core (w : Window) : (Option Nat × Option Nat) × Window :=
  ((some (w.front.getD w.offset 0), w.get_head),
   { w with offset := w.offset + 1, bytes_read := w.bytes_read + 1 })

/-- `Window::advance`. -/
def Window.advance (w : Window) : (Option Nat × Option Nat) × Window :=
  if w.front.length = 0 then ((none, none), w)
  else if w.front.length ≤ w.offset then
    if w.back.length = 0 then ((none, none), w)
    else (w.load_next_block).advance_core
  else w.advance_core

/-- `Window::frame`: the two slices forming the current window view. -/
def Window.frame (w : Window) : List Nat × List Nat :=
  (w.front.drop w.offset, w.back.take w.offset)

/-- `Window::frame_size`. -/
def Window.frame_size (w : Window) : Nat :=
  w.front.length + w.back.length - w.offset

/-- `Window::on_boundry` (spelling from the source). -/
def Window.on_boundry (w : Window) : Bool :=
  w.offset == 0 || w.offset == w.front.length

/-- `Window::get_bytes_read`. -/
def Window.get_bytes_read (w : Window) : Nat := w.bytes_read

/-- Modelled from the spec: the strong hash is the 16-byte MD5 digest
computed by the external `crypto` crate, which is not part of this
repository's sources.  The spec only requires a collision-resistant
digest that is compared for equality, so it is modelled as an injective
digest: the hashed bytes themselves. -/
def md5 (data : List Nat) : List Nat := data

/-- The weak-hash table `HashMap<u32, Vec<(usize, [u8; 16])>>`, modelled
as an association list in key-insertion order; the per-key vectors keep
their push order exactly as the Rust `Vec` does. -/
abbrev Hashes := List (Nat × List (Nat × List Nat))

/-- `hashes.entry(weak).or_insert(Vec::new()).push(v)`. -/
def Hashes.push : Hashes → Nat → Nat × List Nat → Hashes
  | [], weak, v => [(weak, [v])]
  | (w, l) :: rest, weak, v =>
    if w = weak then (w, l ++ [v]) :: rest else (w, l) :: Hashes.push rest weak v

/-- `hashes.get(&weak)`. -/
def Hashes.get : Hashes → Nat → Option (List (Nat × List Nat))
  | [], _ => none
  | (w, l) :: rest, weak => if w = weak then some l else Hashes.get rest weak

/-- The digest of one file version (`struct BlockHashes` in src/lib.rs). -/
structure BlockHashes where
  hashes : Hashes
  block_size : Nat
  file_size : Nat
deriving DecidableEq, Repr

/-- The successive `read` calls of `BlockHashes::new` chop the source into
`block_size` chunks, the last possibly short; the fuel only bounds the
recursion depth and `l.length` is always enough. -/
def chunksAux (block_size : Nat) : Nat → List Nat → List (List Nat)
  | _, [] => []
  | 0, _ :: _ => []
  | fuel + 1, x :: xs =>
    if block_size = 0 then []
    else (x :: xs).take block_size :: chunksAux block_size fuel ((x :: xs).drop block_size)

/-- The chunk decomposition read by `BlockHashes::new`. -/
def chunks (block_size : Nat) (l : List Nat) : List (List Nat) :=
  chunksAux block_size l.length l

/-- Accumulate `(weak, strong)` block hashes at consecutive indices, in
block order: the common shape of the insertion loops of
`BlockHashes::new`, `diff_and_update` and `expand_from`. -/
def hashSeqAux : List (Nat × List Nat) → Nat → Hashes → Hashes
  | [], _, h => h
  | (weak, strong) :: rest, idx, h => hashSeqAux rest (idx + 1) (h.push weak (idx, strong))

/-- Build a hash table from the per-block `(weak, strong)` pairs in block
order. -/
def hashSeq (l : List (Nat × List Nat)) : Hashes := hashSeqAux l 0 []

/-- `BlockHashes::new`. -/
def BlockHashes.new (data : List Nat) (block_size : Nat) : BlockHashes :=
  let cs := chunks block_size data
  { hashes := hashSeq (cs.map (fun c => (RollingHash.hash_buffer c, md5 c)))
    block_size := block_size
    file_size := (cs.map List.length).sum }

/-- `BlockHashes::empty`. -/
def BlockHashes.empty (block_size : Nat) : BlockHashes := ⟨[], block_size, 0⟩

/-- The block loop of `BlockHashes::verify_unchanged`: a block whose weak
hash has no entry at all is skipped, only a present entry missing the
`(index, strong)` pair makes the loop return false. -/
def verifyBlocks (self : BlockHashes) : List (List Nat) → Nat → Bool
  | [], _ => true
  | c :: rest, idx =>
    match self.hashes.get (RollingHash.hash_buffer c) with
    | some entry =>
      if entry.contains (idx, md5 c) then verifyBlocks self rest (idx + 1) else false
    | none => verifyBlocks self rest (idx + 1)

/-- `BlockHashes::verify_unchanged`. -/
def BlockHashes.verify_unchanged (self : BlockHashes) (data : List Nat) : Bool :=
  let cs := chunks self.block_size data
  if verifyBlocks self cs 0 then ((cs.map List.length).sum == self.file_size) else false

/-- An insert operation (`struct Insert` in src/lib.rs). -/
structure Insert where
  position : Nat
  data : List Nat
deriving DecidableEq, Repr

/-- A delete operation (`struct Delete` in src/lib.rs). -/
structure Delete where
  position : Nat
  len : Nat
deriving DecidableEq, Repr

/-- An edit script (`struct Diff` in src/lib.rs). -/
structure Diff where
  inserts : List Insert
  deletes : List Delete
deriving DecidableEq, Repr

/-- `Diff::new`. -/
def Diff.new : Diff := ⟨[], []⟩

/-- The list update of `Diff::add_insert`: extend the last insert when the
new one is adjacent to it, otherwise push. -/
def addInsertList : List Insert → Nat → List Nat → List Insert
  | [], position, data => [⟨position, data⟩]
  | [tail], position, data =>
    if tail.position + tail.data.length = position then [⟨tail.position, tail.data ++ data⟩]
    else [tail, ⟨position, data⟩]
  | x :: y :: rest, position, data => x :: addInsertList (y :: rest) position data

/-- `Diff::add_insert`. -/
def Diff.add_insert (d : Diff) (position : Nat) (data : List Nat) : Diff :=
  { d with inserts := addInsertList d.inserts position data }

/-- The list update of `Diff::add_delete`: merge with the last delete when
the positions coincide, otherwise push. -/
def addDeleteList : List Delete → Nat → Nat → List Delete
  | [], position, len => [⟨position, len⟩]
  | [tail], position, len =>
    if tail.position = position then [⟨tail.position, tail.len + len⟩]
    else [tail, ⟨position, len⟩]
  | x :: y :: rest, position, len => x :: addDeleteList (y :: rest) position len

/-- `Diff::add_delete`. -/
def Diff.add_delete (d : Diff) (position : Nat) (len : Nat) : Diff :=
  { d with deletes := addDeleteList d.deletes position len }

/-- `Diff::is_empty`. -/
def Diff.is_empty (d : Diff) : Bool := d.inserts.isEmpty && d.deletes.isEmpty

/-- Insert phase of `Diff::apply_to_string` and `Diff::apply`: copy old
bytes up to each insert position (the `unwrap` panics when the stream
runs out first), splice the data, then copy the remainder. -/
def applyInserts : List Insert → Nat → List Nat → Outcome (List Nat)
  | [], _, old => .ok old
  | ins :: rest, index, old =>
    let k := ins.position - index
    if old.length < k then .panic
    else
      match applyInserts rest (index + k + ins.data.length) (old.drop k) with
      | .ok t => .ok (old.take k ++ ins.data ++ t)
      | o => o

/-- Delete phase of `Diff::apply_to_string` and `Diff::apply`: copy bytes
up to each delete position (panicking when the stream runs out first),
then silently skip up to `len` bytes. -/
def applyDeletes : List Delete → Nat → List Nat → Outcome (List Nat)
  | [], _, s => .ok s
  | del :: rest, index, s =>
    let k := del.position - index
    if s.length < k then .panic
    else
      match applyDeletes rest (index + k) ((s.drop k).drop del.len) with
      | .ok t => .ok (s.take k ++ t)
      | o => o

/-- Byte-level semantics shared by `Diff::apply_to_string` (before UTF-8
validation) and `Diff::apply`: all inserts first, then all deletes. -/
def Diff.applyTo (d : Diff) (old : List Nat) : Outcome (List Nat) :=
  match applyInserts d.inserts 0 old with
  | .ok mid => applyDeletes d.deletes 0 mid
  | o => o

/-- The mutable state of `BlockHashes::diff_and_update`. -/
structure DState where
  w : Window
  weak : RollingHash
  insert_buffer : List Nat
  new_hashes : Hashes
  current_block_index : Nat
  diffs : Diff
  last : Int
deriving DecidableEq, Repr

/-- The bytes of the current window view, as hashed by the strong hasher
(`strong_hasher.input(front); strong_hasher.input(back)`). -/
def frameList (w : Window) : List Nat := (w.frame).1 ++ (w.frame).2

/-- `BlockHashes::hash_match`: first entry of the weak-hash bucket whose
strong hash matches the current frame. -/
def BlockHashes.hash_match (self : BlockHashes) (weak : RollingHash) (w : Window) :
    Option Nat :=
  match self.hashes.get weak.get_hash with
  | some entries => entries.findSome? (fun e => if md5 (frameList w) = e.2 then some e.1 else none)
  | none => none

/-- `BlockHashes::check_match`: a hash match is accepted only when its
block index is beyond the last matched one. -/
def BlockHashes.check_match (self : BlockHashes) (weak : RollingHash) (w : Window)
    (last : Int) : Option Nat :=
  match self.hash_match weak w with
  | some j => if (j : Int) > last then some j else none
  | none => none

/-- The boundary bookkeeping shared by both branches of the
`diff_and_update` loop: when the window sits on a block boundary, record
the current frame into the new hash table. -/
def recordBoundary (s : DState) : DState :=
  if s.w.on_boundry then
    { s with
      new_hashes := s.new_hashes.push s.weak.get_hash (s.current_block_index, md5 (frameList s.w))
      current_block_index := s.current_block_index + 1 }
  else s

/-- Advance the window one byte and roll the weak hash when a tail byte
came out. -/
def advanceRoll (s : DState) : (Option Nat × Option Nat) × DState :=
  let r := s.w.advance
  match r.1.1 with
  | some tail => (r.1, { s with w := r.2, weak := s.weak.roll_hash r.1.2 tail })
  | none => (r.1, { s with w := r.2 })

/-- The inner for-loop of the match branch of `diff_and_update`: advance a
whole block, recording boundary frames, bailing out at end of data. -/
def matchAdvance : Nat → DState → DState
  | 0, s => s
  | i + 1, s =>
    if s.w.on_boundry && s.w.frame_size == 0 then s
    else
      let s1 := recordBoundary s
      let r := advanceRoll s1
      match r.1.1 with
      | none => r.2
      | some _ => matchAdvance i r.2

/-- The main while-loop of `BlockHashes::diff_and_update`, with explicit
fuel; `none` stands for fuel exhaustion or for the `tail.unwrap()` panic
of the miss branch (both are shown unreachable below). -/
def diffLoop (self : BlockHashes) : Nat → DState → Option DState
  | 0, _ => none
  | fuel + 1, s =>
    if s.w.frame_size = 0 then some s
    else
      match self.check_match s.weak s.w s.last with
      | some other_block_index =>
        let s1 :=
          if s.insert_buffer.length > 0 then
            { s with
              diffs := s.diffs.add_insert (s.w.get_bytes_read - s.insert_buffer.length)
                s.insert_buffer
              insert_buffer := [] }
          else s
        let s2 :=
          if (other_block_index : Int) > s1.last + 1 then
            { s1 with
              diffs := s1.diffs.add_delete s1.w.get_bytes_read
                (self.block_size * ((other_block_index : Int) - s1.last - 1).toNat) }
          else s1
        let s3 := { s2 with last := (other_block_index : Int) }
        diffLoop self fuel (matchAdvance self.block_size s3)
      | none =>
        let s1 := recordBoundary s
        let r := advanceRoll s1
        match r.1.1 with
        | some tail => diffLoop self fuel { r.2 with insert_buffer := r.2.insert_buffer ++ [tail] }
        | none => none

/-- `BlockHashes::diff_and_update`.  The fuel handed to the loop is one
more than the number of bytes still to stream, which is shown sufficient
below; the `block_size = 0` guard mirrors the division-by-zero panic in
the `old_block_count` computation. -/
def BlockHashes.diff_and_update (self : BlockHashes) (new_data : List Nat) :
    Option (Diff × BlockHashes) :=
  let w := Window.new new_data self.block_size
  let s0 : DState := ⟨w, RollingHash.new (w.frame).1, [], [], 0, Diff.new, -1⟩
  match diffLoop self (w.frame_size + w.reader.length + 1) s0 with
  | none => none
  | some s =>
    let diffs :=
      if s.insert_buffer.length > 0 then
        s.diffs.add_insert (s.w.get_bytes_read - s.insert_buffer.length) s.insert_buffer
      else s.diffs
    if self.block_size = 0 then none
    else
      let old_block_count : Int := ((self.file_size + self.block_size - 1) / self.block_size : Nat)
      let diffs2 :=
        if s.last + 1 < old_block_count then
          diffs.add_delete s.w.get_bytes_read
            (((self.file_size : Int) - (s.last + 1) * (self.block_size : Int)).toNat)
        else diffs
      some (diffs2, ⟨s.new_hashes, self.block_size, s.w.get_bytes_read⟩)

/-! Codecs (src/lib.rs `compress_to` / `expand_from`, src/hashing.rs
`compress_to` / `expand_from`). -/

/-- `NetworkEndian::write_u32` (values are first truncated `as u32`). -/
def writeU32 (v : Nat) : List Nat :=
  [v / 2 ^ 24 % 256, v / 2 ^ 16 % 256, v / 2 ^ 8 % 256, v % 256]

/-- `NetworkEndian::read_u32` of a four-byte buffer. -/
def readU32 (buf : List Nat) : Nat :=
  buf.getD 0 0 * 2 ^ 24 + buf.getD 1 0 * 2 ^ 16 + buf.getD 2 0 * 2 ^ 8 + buf.getD 3 0

/-- `Read::read_exact`: fails when fewer than `n` bytes remain. -/
def readExact (r : List Nat) (n : Nat) : Option (List Nat × List Nat) :=
  if n ≤ r.length then some (r.take n, r.drop n) else none

/-- `Read::read` into an existing buffer: reads up to `n` bytes and leaves
any unfilled tail of the buffer with its previous content. -/
def readBuf (buf r : List Nat) (n : Nat) : List Nat × List Nat :=
  let t := r.take n
  (t ++ buf.drop t.length, r.drop n)

/-- `Insert::compress_to`. -/
def Insert.compress_to (i : Insert) : List Nat :=
  writeU32 i.position ++ writeU32 i.data.length ++ i.data

/-- `Delete::compress_to`. -/
def Delete.compress_to (d : Delete) : List Nat :=
  writeU32 d.position ++ writeU32 d.len

/-- `Diff::compress_to`. -/
def Diff.compress_to (d : Diff) : List Nat :=
  writeU32 d.inserts.length ++ (d.inserts.map Insert.compress_to).flatten ++
    writeU32 d.deletes.length ++ (d.deletes.map Delete.compress_to).flatten

/-- `Insert::expand_from` (all reads are `read_exact`, so a short source is
an `Err` return). -/
def Insert.expand_from (r : List Nat) : Outcome (Insert × List Nat) :=
  match readExact r 4 with
  | none => .error
  | some (pbuf, r1) =>
    match readExact r1 4 with
    | none => .error
    | some (lbuf, r2) =>
      match readExact r2 (readU32 lbuf) with
      | none => .error
      | some (data, r3) => .ok (⟨readU32 pbuf, data⟩, r3)

/-- `Delete::expand_from`. -/
def Delete.expand_from (r : List Nat) : Outcome (Delete × List Nat) :=
  match readExact r 4 with
  | none => .error
  | some (pbuf, r1) =>
    match readExact r1 4 with
    | none => .error
    | some (lbuf, r2) => .ok (⟨readU32 pbuf, readU32 lbuf⟩, r2)

/-- The insert-collection loop of `Diff::expand_from`: each entry is
decoded with `.unwrap()`, so a failing entry is a panic, not an error. -/
def expandInserts : Nat → List Nat → Outcome (List Insert × List Nat)
  | 0, r => .ok ([], r)
  | n + 1, r =>
    match Insert.expand_from r with
    | .ok (i, r1) =>
      match expandInserts n r1 with
      | .ok (is, r2) => .ok (i :: is, r2)
      | o => o
    | _ => .panic

/-- The delete-collection loop of `Diff::expand_from`, also `.unwrap()`ed. -/
def expandDeletes : Nat → List Nat → Outcome (List Delete × List Nat)
  | 0, r => .ok ([], r)
  | n + 1, r =>
    match Delete.expand_from r with
    | .ok (d, r1) =>
      match expandDeletes n r1 with
      | .ok (ds, r2) => .ok (d :: ds, r2)
      | o => o
    | _ => .panic

/-- `Diff::expand_from`: the two length fields use `read_exact` (an `Err`
on truncation), the entries are unwrapped (a panic on truncation). -/
def Diff.expand_from (r : List Nat) : Outcome Diff :=
  match readExact r 4 with
  | none => .error
  | some (ibuf, r1) =>
    match expandInserts (readU32 ibuf) r1 with
    | .ok (inserts, r2) =>
      match readExact r2 4 with
      | none => .error
      | some (dbuf, r3) =>
        match expandDeletes (readU32 dbuf) r3 with
        | .ok (deletes, _) => .ok ⟨inserts, deletes⟩
        | .error => .error
        | .panic => .panic
    | .error => .error
    | .panic => .panic

/-- The bucket-scattering pass of `BlockHashes::compress_to`: indexing the
dense vector with an out-of-range block index panics. -/
def fillEntries (weak : Nat) :
    List (Nat × List Nat) → List (Nat × List Nat) → Outcome (List (Nat × List Nat))
  | [], seq => .ok seq
  | (index, strong) :: es, seq =>
    if index < seq.length then fillEntries weak es (seq.set index (weak, strong)) else .panic

/-- Scatter every bucket of the hash table into the dense per-index
vector. -/
def fillSeq : Hashes → List (Nat × List Nat) → Outcome (List (Nat × List Nat))
  | [], seq => .ok seq
  | (weak, entry) :: rest, seq =>
    match fillEntries weak entry seq with
    | .ok seq2 => fillSeq rest seq2
    | o => o

/-- `BlockHashes::compress_to`; the `block_size = 0` guard mirrors the
division-by-zero panic in the `block_count` computation. -/
def BlockHashes.compress_to (self : BlockHashes) : Outcome (List Nat) :=
  if self.block_size = 0 then .panic
  else
    let block_count := (self.file_size + self.block_size - 1) / self.block_size
    match fillSeq self.hashes (List.replicate block_count (0, List.replicate 16 0)) with
    | .ok seq =>
      .ok (writeU32 self.file_size ++ writeU32 self.block_size ++
        (seq.map (fun e => writeU32 e.1 ++ e.2)).flatten)
    | .error => .error
    | .panic => .panic

/-- The block-reading loop of `BlockHashes::expand_from`.  All reads are
plain `read`, which never fails on a short source: the previous buffer
contents are silently reused. -/
def expandBlocksAux : Nat → Nat → List Nat → List Nat → List Nat → Hashes → Hashes
  | 0, _, _, _, _, h => h
  | n + 1, index, ibuf, sbuf, r, h =>
    let p1 := readBuf ibuf r 4
    let weak := readU32 p1.1
    let p2 := readBuf sbuf p1.2 16
    expandBlocksAux n (index + 1) p1.1 p2.1 p2.2 (h.push weak (index, p2.1))

/-- `BlockHashes::expand_from`; `block_size = 0` (as decoded, possibly from
a short read) makes the `block_count` division panic. -/
def BlockHashes.expand_from (r : List Nat) : Outcome BlockHashes :=
  let p1 := readBuf (List.replicate 4 0) r 4
  let file_size := readU32 p1.1
  let p2 := readBuf p1.1 p1.2 4
  let block_size := readU32 p2.1
  if block_size = 0 then .panic
  else
    .ok ⟨expandBlocksAux ((file_size + block_size - 1) / block_size) 0 p2.1
      (List.replicate 16 0) p2.2 [], block_size, file_size⟩

/-! The Hirschberg string differ (src/string_diff.rs).  Strings are lists
of characters; the byte-oriented operations (`str::len`, byte slicing,
`str::bytes`) go through the UTF-8 sizes of the characters, and slicing
at a byte index that is not a character boundary is the Rust panic,
modelled as `none`. -/

/-- A scoring scheme (`trait OperationScore`). -/
structure OperationScore where
  insert_score : Char → Int
  delete_score : Char → Int
  substitution_score : Char → Char → Int
  match_score : Char → Int

/-- The `EditDistance` scorer. -/
def EditDistance : OperationScore :=
  ⟨fun _ => -1, fun _ => -1, fun _ _ => -2, fun _ => 0⟩

/-- Number of bytes of the UTF-8 encoding of a character. -/
def utf8Size (c : Char) : Nat :=
  if c.toNat < 0x80 then 1
  else if c.toNat < 0x800 then 2
  else if c.toNat < 0x10000 then 3
  else 4

/-- `str::len`: the byte length of a string. -/
def strLen (s : List Char) : Nat := (s.map utf8Size).sum

/-- The UTF-8 encoding of a character. -/
def utf8Bytes (c : Char) : List Nat :=
  let v := c.toNat
  if v < 0x80 then [v]
  else if v < 0x800 then [0xC0 + v / 0x40, 0x80 + v % 0x40]
  else if v < 0x10000 then [0xE0 + v / 0x1000, 0x80 + v / 0x40 % 0x40, 0x80 + v % 0x40]
  else [0xF0 + v / 0x40000, 0x80 + v / 0x1000 % 0x40, 0x80 + v / 0x40 % 0x40, 0x80 + v % 0x40]

/-- `str::bytes`: the UTF-8 bytes of a string. -/
def strBytes (s : List Char) : List Nat := (s.map utf8Bytes).flatten

/-- The byte slice `&s[..k]`; `none` is the byte-index-not-a-char-boundary
(or out-of-range) panic. -/
def sliceTo : List Char → Nat → Option (List Char)
  | _, 0 => some []
  | [], _ + 1 => none
  | c :: rest, k + 1 =>
    if utf8Size c ≤ k + 1 then (sliceTo rest (k + 1 - utf8Size c)).map (c :: ·) else none

/-- The byte slice `&s[k..]`. -/
def sliceFrom : List Char → Nat → Option (List Char)
  | s, 0 => some s
  | [], _ + 1 => none
  | c :: rest, k + 1 =>
    if utf8Size c ≤ k + 1 then sliceFrom rest (k + 1 - utf8Size c) else none

/-- The first row of the Needleman-Wunsch score table: cumulative insert
scores. -/
def nwFirstRow (scorer : OperationScore) : List Char → Int → List Int
  | [], _ => []
  | c :: rest, total =>
    (total + scorer.insert_score c) :: nwFirstRow scorer rest (total + scorer.insert_score c)

/-- One inner cell pass of `nw_score`: walk the new string keeping the
previous row cell, the remaining previous row, and the cell just
computed in this row. -/
def nwRowAux (scorer : OperationScore) (x : Char) :
    List Char → Int → List Int → Int → List Int
  | [], _, _, _ => []
  | y :: ys, prevLast, lastRest, thisPrev =>
    let lNext := lastRest.headD 0
    let score_sub := prevLast +
      (if x = y then scorer.match_score x else scorer.substitution_score x y)
    let score_del := lNext + scorer.delete_score x
    let score_ins := thisPrev + scorer.insert_score y
    let cell := max (max score_sub score_del) score_ins
    cell :: nwRowAux scorer x ys lNext lastRest.tail cell

/-- One full row update of `nw_score` for the character `x` of the old
string. -/
def nwRow (scorer : OperationScore) (x : Char) (new : List Char) (lastRow : List Int) :
    List Int :=
  let first := lastRow.headD 0 + scorer.delete_score x
  first :: nwRowAux scorer x new (lastRow.headD 0) lastRow.tail first

/-- `nw_score`. -/
def nw_score (scorer : OperationScore) (old new : List Char) : List Int :=
  old.foldl (fun row x => nwRow scorer x new row) (0 :: nwFirstRow scorer new 0)

/-- Lexicographic comparison of `(score, index)` pairs as Rust derives it
for tuples; `Iterator::max` keeps the last maximal element, so the fold
replaces on ties. -/
def lexGe (p q : Int × Nat) : Bool :=
  q.1 < p.1 || (p.1 == q.1 && q.2 ≤ p.2)

/-- `iterator.max()` over `(score, index)` pairs. -/
def listMaxPair : List (Int × Nat) → Option (Int × Nat)
  | [] => none
  | x :: rest => some (rest.foldl (fun cur c => if lexGe c cur then c else cur) x)

/-- The `do_insert!` macro: encode the inserted string, add it at the
insert index, and advance that index by the byte count.  The state is
`(diff, insert_index, delete_index)`. -/
def doInsert (s : List Char) (st : Diff × Nat × Nat) : Diff × Nat × Nat :=
  let bytes := strBytes s
  (st.1.add_insert st.2.1 bytes, st.2.1 + bytes.length, st.2.2)

/-- The `do_delete!` macro. -/
def doDelete (length : Nat) (st : Diff × Nat × Nat) : Diff × Nat × Nat :=
  (st.1.add_delete (st.2.1 - st.2.2) length, st.2.1 + length, st.2.2 + length)

/-- The recursive `hirschberg` procedure, on explicit fuel (the byte
length of `old` strictly decreases at each recursion, so
`strLen old + 1` is enough); `none` is a slicing panic (or exhausted
fuel, never reached from `find_diff`). -/
def hirschberg (scorer : OperationScore) :
    Nat → List Char → List Char → List Char → List Char →
    Diff × Nat × Nat → Option (Diff × Nat × Nat)
  | 0, _, _, _, _, _ => none
  | fuel + 1, old, new, old_rev, new_rev, st =>
    let old_len := strLen old
    let new_len := strLen new
    if old_len = 0 then some (doInsert new st)
    else if new_len = 0 then some (doDelete old_len st)
    else if old_len = 1 then
      let old_char := old.headD default
      match new.findIdx? (fun c => c == old_char) with
      | some position =>
        match (if position > 0 then (sliceTo new position).map (fun s => doInsert s st)
               else some st) with
        | none => none
        | some st1 =>
          let st2 := (st1.1, st1.2.1 + 1, st1.2.2)
          if new_len - position > 1 then (sliceFrom new (position + 1)).map (doInsert · st2)
          else some st2
      | none => some (doDelete 1 (doInsert new st))
    else if new_len = 1 then
      let new_char := new.headD default
      match old.findIdx? (fun c => c == new_char) with
      | some position =>
        let st1 := if position > 0 then doDelete position st else st
        let st2 := (st1.1, st1.2.1 + 1, st1.2.2)
        some (if old_len - position > 1 then doDelete (old_len - position - 1) st2 else st2)
      | none => some (doDelete old_len (doInsert new st))
    else
      let old_mid := old_len / 2
      match sliceTo old old_mid with
      | none => none
      | some oldL =>
        let score_l := nw_score scorer oldL new
        match sliceTo old_rev (old_len - old_mid) with
        | none => none
        | some oldRevL =>
          let score_r := nw_score scorer oldRevL new_rev
          let sums := ((score_l.zip score_r.reverse).map (fun p => p.1 + p.2)).zip
            (List.range (new_len + 1))
          match listMaxPair sums with
          | none => none
          | some best =>
            let new_mid := best.2
            match sliceTo new new_mid, sliceFrom old_rev (old_len - old_mid),
                sliceFrom new_rev (new_len - new_mid) with
            | some newL, some oldRevR, some newRevR =>
              match hirschberg scorer fuel oldL newL oldRevR newRevR st with
              | none => none
              | some stL =>
                match sliceFrom old old_mid, sliceFrom new new_mid,
                    sliceTo new_rev (new_len - new_mid) with
                | some oldR, some newR, some newRevL =>
                  hirschberg scorer fuel oldR newR oldRevL newRevL stL
                | _, _, _ => none
            | _, _, _ => none

/-- `find_diff` (src/string_diff.rs). -/
def find_diff (old new : List Char) (scorer : OperationScore) : Option Diff :=
  (hirschberg scorer (strLen old + 1) old new old.reverse new.reverse (Diff.new, 0, 0)).map
    (·.1)

/-! Rolling-hash lemmas: the fold state of `RollingHash` over a byte list
is the plain sum and the position-weighted sum of the bytes, modulo
2^16. -/

/-- Sum of the bytes, in `ZMod 65536`. -/
def sumA : List Nat → ZMod 65536
  | [] => 0
  | x :: t => (x : ZMod 65536) + sumA t

/-- Position-weighted sum of the bytes (weight of `b[i]` in a list of
length `n` is `n - i`), in `ZMod 65536`. -/
def sumB : List Nat → ZMod 65536
  | [] => 0
  | x :: t => ((t.length + 1 : Nat) : ZMod 65536) * (x : ZMod 65536) + sumB t

/-- The rolling-hash state whose components describe the window `l`. -/
def hashStateOf (l : List Nat) : RollingHash :=
  ⟨sumA l, sumB l, (l.length : ZMod 65536)⟩

theorem rollingFoldAux (l : List Nat) (s : RollingHash) :
    l.foldl
      (fun (s : RollingHash) (byte : Nat) =>
        (⟨s.a + (byte : ZMod 65536), s.b + (s.a + (byte : ZMod 65536)), s.block_size + 1⟩ :
          RollingHash)) s =
    ⟨s.a + sumA l, s.b + (l.length : ZMod 65536) * s.a + sumB l,
      s.block_size + (l.length : ZMod 65536)⟩ := by
  induction l generalizing s with
  | nil => simp [sumA, sumB]
  | cons x t ih =>
    rw [List.foldl_cons, ih, RollingHash.mk.injEq]
    simp only [sumA, sumB, List.length_cons]
    refine ⟨by ring, ?_, by push_cast; ring⟩
    push_cast
    ring

theorem rollingHash_new_eq (l : List Nat) : RollingHash.new l = hashStateOf l := by
  rw [RollingHash.new, rollingFoldAux, hashStateOf]
  rw [RollingHash.mk.injEq]
  refine ⟨by ring, by ring, by ring⟩

theorem hashBufFoldAux (l : List Nat) (p : ZMod 65536 × ZMod 65536) :
    l.foldl
      (fun (p : ZMod 65536 × ZMod 65536) (byte : Nat) =>
        (p.1 + (byte : ZMod 65536), p.2 + (p.1 + (byte : ZMod 65536)))) p =
    (p.1 + sumA l, p.2 + (l.length : ZMod 65536) * p.1 + sumB l) := by
  induction l generalizing p with
  | nil => simp [sumA, sumB]
  | cons x t ih =>
    rw [List.foldl_cons, ih, Prod.mk.injEq]
    simp only [sumA, sumB, List.length_cons]
    refine ⟨by ring, ?_⟩
    push_cast
    ring

theorem hash_buffer_eq (l : List Nat) :
    RollingHash.hash_buffer l = (hashStateOf l).get_hash := by
  rw [RollingHash.hash_buffer, RollingHash.get_hash]
  rw [show ((0, 0) : ZMod 65536 × ZMod 65536) = ((0 : ZMod 65536), (0 : ZMod 65536)) from rfl,
    hashBufFoldAux]
  simp [hashStateOf]

theorem sumA_append_single (l : List Nat) (y : Nat) :
    sumA (l ++ [y]) = sumA l + (y : ZMod 65536) := by
  induction l with
  | nil => simp [sumA]
  | cons x t ih =>
    simp only [List.cons_append, List.append_eq, sumA, ih]
    ring

theorem sumB_append_single (l : List Nat) (y : Nat) :
    sumB (l ++ [y]) = sumB l + sumA l + (y : ZMod 65536) := by
  induction l with
  | nil => simp [sumA, sumB]
  | cons x t ih =>
    simp only [List.cons_append, List.append_eq, sumB, sumA, ih]
    push_cast [List.length_append, List.length_singleton]
    ring

/-- State-level roll law, growing case: rolling the state of window
`x :: l` with new byte `y` gives the state of window `l ++ [y]`. -/
theorem roll_state_some (l : List Nat) (x y : Nat) :
    (hashStateOf (x :: l)).roll_hash (some y) x = hashStateOf (l ++ [y]) := by
  rw [hashStateOf, hashStateOf, RollingHash.roll_hash]
  simp only [sumA, sumB, List.length_cons, sumA_append_single, sumB_append_single,
    RollingHash.mk.injEq]
  refine ⟨by ring, ?_, by push_cast [List.length_append, List.length_singleton]; ring⟩
  push_cast [List.length_append, List.length_singleton]
  ring

/-- State-level roll law, shrinking case. -/
theorem roll_state_none (l : List Nat) (x : Nat) :
    (hashStateOf (x :: l)).roll_hash none x = hashStateOf l := by
  rw [hashStateOf, hashStateOf, RollingHash.roll_hash]
  simp only [sumA, sumB, List.length_cons, RollingHash.mk.injEq]
  refine ⟨by ring, by push_cast; ring, by push_cast; ring⟩

/-- C4: the rolling-hash law.  Rolling the hash of a window `w` with old
byte `w[0]` and new byte `y` gives `hash_buffer (w.tail ++ [y])`; rolling
with no new byte gives `hash_buffer w.tail`. -/
theorem c4_rolling_hash_law (w : List Nat) (y : Nat) (hne : w ≠ [])
    (hlen : w.length ≤ 65535) :
    ((RollingHash.new w).roll_hash (some y) (w.headD 0)).get_hash =
      RollingHash.hash_buffer (w.tail ++ [y]) ∧
    ((RollingHash.new w).roll_hash none (w.headD 0)).get_hash =
      RollingHash.hash_buffer w.tail := by
  obtain ⟨x, l, rfl⟩ : ∃ x l, w = x :: l := by
    cases w with
    | nil => exact absurd rfl hne
    | cons x l => exact ⟨x, l, rfl⟩
  rw [rollingHash_new_eq]
  simp only [List.headD_cons, List.tail_cons]
  rw [roll_state_some, roll_state_none, hash_buffer_eq, hash_buffer_eq]
  exact ⟨rfl, rfl⟩

/-- C1: the round-trip property fails on the code.  With old bytes
"abc" (block size 1) and new bytes "bz", `diff_and_update` yields the
script inserts = [(1, "z")], deletes = [(0, 1), (2, 1)] (and the digest
of "bz"), but applying that script to "abc" gives "zb", not "bz": the
insert is applied at a new-file offset against old bytes whose deleted
prefix has not yet been removed. -/
theorem c1_roundtrip_fails_on_code :
    (BlockHashes.new [97, 98, 99] 1).diff_and_update [98, 122] =
      some (⟨[⟨1, [122]⟩], [⟨0, 1⟩, ⟨2, 1⟩]⟩, BlockHashes.new [98, 122] 1) ∧
    Diff.applyTo ⟨[⟨1, [122]⟩], [⟨0, 1⟩, ⟨2, 1⟩]⟩ [97, 98, 99] = Outcome.ok [122, 98] ∧
    Outcome.ok ([122, 98] : List Nat) ≠ Outcome.ok [98, 122] :=
  ⟨by decide, by decide, by decide⟩

/-- C3: `verify_unchanged` returns true for a changed source of the same
length whose blocks' weak hashes are absent from the digest: with the
digest of "ab" (block size 1), verifying "cd" yields true although both
block hashes are missing from the map, because the loop skips blocks
whose weak hash has no bucket at all. -/
theorem c3_verify_unchanged_accepts_changed_source :
    (BlockHashes.new [97, 98] 1).verify_unchanged [99, 100] = true ∧
    (BlockHashes.new [97, 98] 1).hashes.get (RollingHash.hash_buffer [99]) = none ∧
    (BlockHashes.new [97, 98] 1).hashes.get (RollingHash.hash_buffer [100]) = none ∧
    ([99, 100] : List Nat) ≠ [97, 98] :=
  ⟨by decide, by decide, by decide, by decide⟩

/-- C6: decode of truncated input is not reported as an error value.
`BlockHashes::expand_from` of an empty source panics (the short `read`
leaves `block_size = 0` and the `block_count` division panics); of an
8-byte header claiming one block it silently fabricates a digest from
stale buffer contents; `Diff::expand_from` of a source that is cut off
inside an insert entry panics on the `unwrap`. -/
theorem c6_decode_failure_behavior :
    BlockHashes.expand_from [] = Outcome.panic ∧
    BlockHashes.expand_from [0, 0, 0, 1, 0, 0, 0, 1] =
      Outcome.ok ⟨[(1, [(0, List.replicate 16 0)])], 1, 1⟩ ∧
    Diff.expand_from [0, 0, 0, 1] = Outcome.panic :=
  ⟨by decide, by decide, by decide⟩

/-- C8: `find_diff` panics on non-ASCII input.  With old = "a" and
new = "éa", the matched character index 1 is used as a byte index into
"éa" (whose byte length is 3), which is not a character boundary: the
slice panics. -/
theorem c8_hirschberg_panics_on_multibyte :
    find_diff [Char.ofNat 97] [Char.ofNat 233, Char.ofNat 97] EditDistance = none ∧
    strLen [Char.ofNat 233, Char.ofNat 97] = 3 :=
  ⟨by decide, by decide⟩

/-! Out-of-range application (C7): the byte-level apply panics, it never
returns an error value. -/

/-- Does some insert position lie beyond the end of the stream at its
point of application? -/
def insOutOfRange : List Insert → Nat → Nat → Bool
  | [], _, _ => false
  | ins :: rest, index, n =>
    let k := ins.position - index
    if n < k then true else insOutOfRange rest (index + k + ins.data.length) (n - k)

/-- Length of the stream produced by the insert phase. -/
def insResultLen : List Insert → Nat → Nat → Nat
  | [], _, n => n
  | ins :: rest, index, n =>
    let k := ins.position - index
    k + ins.data.length + insResultLen rest (index + k + ins.data.length) (n - k)

/-- Does some delete position lie beyond the end of the stream at its
point of application? -/
def delOutOfRange : List Delete → Nat → Nat → Bool
  | [], _, _ => false
  | del :: rest, index, n =>
    let k := del.position - index
    if n < k then true else delOutOfRange rest (index + k) (n - k - del.len)

theorem applyInserts_ne_error (l : List Insert) : ∀ (index : Nat) (old : List Nat),
    applyInserts l index old ≠ Outcome.error := by
  induction l with
  | nil => intro index old; simp [applyInserts]
  | cons ins rest ih =>
    intro index old
    simp only [applyInserts]
    by_cases hk : old.length < ins.position - index
    · simp [hk]
    · rw [if_neg hk]
      cases h : applyInserts rest (index + (ins.position - index) + ins.data.length)
          (old.drop (ins.position - index)) with
      | ok t => simp [h]
      | error => exact absurd h (ih _ _)
      | panic => simp [h]

theorem applyInserts_panic_iff (l : List Insert) : ∀ (index : Nat) (old : List Nat),
    applyInserts l index old = Outcome.panic ↔
      insOutOfRange l index old.length = true := by
  induction l with
  | nil => intro index old; simp [applyInserts, insOutOfRange]
  | cons ins rest ih =>
    intro index old
    simp only [applyInserts, insOutOfRange]
    by_cases hk : old.length < ins.position - index
    · simp [hk]
    · rw [if_neg hk, if_neg hk]
      have hlen : (old.drop (ins.position - index)).length =
          old.length - (ins.position - index) := List.length_drop _ _
      cases h : applyInserts rest (index + (ins.position - index) + ins.data.length)
          (old.drop (ins.position - index)) with
      | ok t =>
        simp only [h]
        constructor
        · intro hc; exact absurd hc (by simp)
        · intro hoob
          have hp := (ih (index + (ins.position - index) + ins.data.length)
            (old.drop (ins.position - index))).2 (by rw [hlen]; exact hoob)
          rw [h] at hp
          exact absurd hp (by simp)
      | error => exact absurd h (applyInserts_ne_error _ _ _)
      | panic =>
        simp only [h]
        constructor
        · intro _
          have hp := (ih (index + (ins.position - index) + ins.data.length)
            (old.drop (ins.position - index))).1 h
          rw [hlen] at hp
          exact hp
        · intro _
          trivial

theorem applyInserts_ok_length (l : List Insert) : ∀ (index : Nat) (old t : List Nat),
    applyInserts l index old = Outcome.ok t → t.length = insResultLen l index old.length := by
  induction l with
  | nil =>
    intro index old t h
    simp only [applyInserts, Outcome.ok.injEq] at h
    simp [insResultLen, ← h]
  | cons ins rest ih =>
    intro index old t h
    simp only [applyInserts] at h
    by_cases hk : old.length < ins.position - index
    · rw [if_pos hk] at h; exact absurd h (by simp)
    · rw [if_neg hk] at h
      cases h2 : applyInserts rest (index + (ins.position - index) + ins.data.length)
          (old.drop (ins.position - index)) with
      | ok t2 =>
        rw [h2] at h
        simp only [Outcome.ok.injEq] at h
        subst h
        have hlen := ih _ _ _ h2
        rw [List.length_drop] at hlen
        simp only [insResultLen, List.length_append, List.length_take, hlen]
        omega
      | error => rw [h2] at h; exact absurd h (by simp)
      | panic => rw [h2] at h; exact absurd h (by simp)

theorem applyDeletes_ne_error (l : List Delete) : ∀ (index : Nat) (s : List Nat),
    applyDeletes l index s ≠ Outcome.error := by
  induction l with
  | nil => intro index s; simp [applyDeletes]
  | cons del rest ih =>
    intro index s
    simp only [applyDeletes]
    by_cases hk : s.length < del.position - index
    · simp [hk]
    · rw [if_neg hk]
      cases h : applyDeletes rest (index + (del.position - index))
          ((s.drop (del.position - index)).drop del.len) with
      | ok t => simp [h]
      | error => exact absurd h (ih _ _)
      | panic => simp [h]

theorem applyDeletes_panic_iff (l : List Delete) : ∀ (index : Nat) (s : List Nat),
    applyDeletes l index s = Outcome.panic ↔
      delOutOfRange l index s.length = true := by
  induction l with
  | nil => intro index s; simp [applyDeletes, delOutOfRange]
  | cons del rest ih =>
    intro index s
    simp only [applyDeletes, delOutOfRange]
    by_cases hk : s.length < del.position - index
    · simp [hk]
    · rw [if_neg hk, if_neg hk]
      have hlen : ((s.drop (del.position - index)).drop del.len).length =
          s.length - (del.position - index) - del.len := by
        simp only [List.length_drop]
      cases h : applyDeletes rest (index + (del.position - index))
          ((s.drop (del.position - index)).drop del.len) with
      | ok t =>
        simp only [h]
        constructor
        · intro hc; exact absurd hc (by simp)
        · intro hoob
          have hp := (ih (index + (del.position - index))
            ((s.drop (del.position - index)).drop del.len)).2 (by rw [hlen]; exact hoob)
          rw [h] at hp
          exact absurd hp (by simp)
      | error => exact absurd h (applyDeletes_ne_error _ _ _)
      | panic =>
        simp only [h]
        constructor
        · intro _
          have hp := (ih (index + (del.position - index))
            ((s.drop (del.position - index)).drop del.len)).1 h
          rw [hlen] at hp
          exact hp
        · intro _
          trivial

/-- C7 (amended): the byte-level application of an edit script panics
exactly when some insert or delete position lies beyond the end of the
stream at its stage of application; there is no apply-kind error
return at the byte level. -/
theorem c7_apply_out_of_range_panics (d : Diff) (old : List Nat) :
    d.applyTo old = Outcome.panic ↔
      (insOutOfRange d.inserts 0 old.length ||
        delOutOfRange d.deletes 0 (insResultLen d.inserts 0 old.length)) = true := by
  rw [Diff.applyTo, Bool.or_eq_true]
  cases h : applyInserts d.inserts 0 old with
  | ok mid =>
    have hni : insOutOfRange d.inserts 0 old.length = false := by
      rcases hio : insOutOfRange d.inserts 0 old.length with _ | _
      · rfl
      · have hp := (applyInserts_panic_iff d.inserts 0 old).2 hio
        rw [h] at hp
        exact absurd hp (by simp)
    simp only [h]
    rw [applyDeletes_panic_iff, applyInserts_ok_length d.inserts 0 old mid h, hni]
    simp
  | error => exact absurd h (applyInserts_ne_error _ _ _)
  | panic =>
    have hio := (applyInserts_panic_iff d.inserts 0 old).1 h
    simp [h, hio]

/-- C7 counterexample to the claim as stated: a script whose insert
position is past the end of the input panics; it does not return an
apply-kind error value. -/
theorem c7_apply_error_counterexample :
    Diff.applyTo ⟨[⟨5, [1]⟩], []⟩ [] = Outcome.panic ∧
    Diff.applyTo ⟨[⟨5, [1]⟩], []⟩ [] ≠ Outcome.error :=
  ⟨by decide, by decide⟩

/-! Codec round-trip lemmas (C5). -/

theorem take_append_len (a b : List Nat) (n : Nat) (h : a.length = n) :
    (a ++ b).take n = a := by
  subst h
  exact List.take_left a b

theorem drop_append_len (a b : List Nat) (n : Nat) (h : a.length = n) :
    (a ++ b).drop n = b := by
  subst h
  exact List.drop_left a b

theorem readBuf_full (buf a r : List Nat) (n : Nat) (ha : a.length = n)
    (hb : buf.length ≤ n) : readBuf buf (a ++ r) n = (a, r) := by
  rw [readBuf, take_append_len a r n ha, drop_append_len a r n ha, ha,
    List.drop_eq_nil_of_le hb, List.append_nil]

theorem readExact_append (a r : List Nat) (n : Nat) (h : a.length = n) :
    readExact (a ++ r) n = some (a, r) := by
  rw [readExact, if_pos (by simp [← h]), take_append_len a r n h, drop_append_len a r n h]

theorem writeU32_length (v : Nat) : (writeU32 v).length = 4 := rfl

theorem readU32_writeU32 (v : Nat) (h : v < 2 ^ 32) : readU32 (writeU32 v) = v := by
  simp only [readU32, writeU32, List.getD_cons_zero, List.getD_cons_succ]
  omega

theorem fillEntries_ok_length (b : List (Nat × List Nat)) :
    ∀ (weak : Nat) (sq sq2 : List (Nat × List Nat)),
      fillEntries weak b sq = Outcome.ok sq2 → sq2.length = sq.length := by
  induction b with
  | nil =>
    intro weak sq sq2 h
    simp only [fillEntries, Outcome.ok.injEq] at h
    rw [h]
  | cons e rest ih =>
    intro weak sq sq2 h
    simp only [fillEntries] at h
    by_cases hi : e.1 < sq.length
    · rw [if_pos hi] at h
      have := ih weak _ _ h
      rwa [List.length_set] at this
    · rw [if_neg hi] at h
      exact absurd h (by simp)

theorem fillSeq_ok_length (hs : Hashes) :
    ∀ (sq sq2 : List (Nat × List Nat)),
      fillSeq hs sq = Outcome.ok sq2 → sq2.length = sq.length := by
  induction hs with
  | nil =>
    intro sq sq2 h
    simp only [fillSeq, Outcome.ok.injEq] at h
    rw [h]
  | cons p rest ih =>
    intro sq sq2 h
    simp only [fillSeq] at h
    cases h2 : fillEntries p.1 p.2 sq with
    | ok sqm =>
      rw [h2] at h
      rw [ih _ _ h, fillEntries_ok_length _ _ _ _ h2]
    | error => rw [h2] at h; exact absurd h (by simp)
    | panic => rw [h2] at h; exact absurd h (by simp)

theorem fillEntries_set_comm (b : List (Nat × List Nat)) :
    ∀ (weak n : Nat) (v : Nat × List Nat) (sq sq2 : List (Nat × List Nat)),
      (∀ e ∈ b, e.1 ≠ n) → fillEntries weak b sq = Outcome.ok sq2 →
      fillEntries weak b (sq.set n v) = Outcome.ok (sq2.set n v) := by
  induction b with
  | nil =>
    intro weak n v sq sq2 _ h
    simp only [fillEntries, Outcome.ok.injEq] at h
    rw [h, fillEntries]
  | cons e rest ih =>
    intro weak n v sq sq2 hne h
    simp only [fillEntries] at h ⊢
    by_cases hi : e.1 < sq.length
    · rw [if_pos hi] at h
      rw [if_pos (by rwa [List.length_set])]
      rw [List.set_comm v (weak, e.2) sq (hne e (by simp)).symm]
      exact ih weak n v _ _ (fun x hx => hne x (by simp [hx])) h
    · rw [if_neg hi] at h
      exact absurd h (by simp)

theorem fillSeq_set_comm (hs : Hashes) :
    ∀ (n : Nat) (v : Nat × List Nat) (sq sq2 : List (Nat × List Nat)),
      (∀ p ∈ hs, ∀ e ∈ p.2, e.1 ≠ n) → fillSeq hs sq = Outcome.ok sq2 →
      fillSeq hs (sq.set n v) = Outcome.ok (sq2.set n v) := by
  induction hs with
  | nil =>
    intro n v sq sq2 _ h
    simp only [fillSeq, Outcome.ok.injEq] at h
    rw [h, fillSeq]
  | cons p rest ih =>
    intro n v sq sq2 hne h
    simp only [fillSeq] at h ⊢
    cases h2 : fillEntries p.1 p.2 sq with
    | ok sqm =>
      rw [h2] at h
      rw [fillEntries_set_comm p.2 p.1 n v sq sqm (fun e he => hne p (by simp) e he) h2]
      exact ih n v _ _ (fun q hq e he => hne q (by simp [hq]) e he) h
    | error => rw [h2] at h; exact absurd h (by simp)
    | panic => rw [h2] at h; exact absurd h (by simp)

theorem fillEntries_append_single (b : List (Nat × List Nat)) :
    ∀ (weak n : Nat) (s : List Nat) (sq sqm : List (Nat × List Nat)),
      n < sqm.length → fillEntries weak b sq = Outcome.ok sqm →
      fillEntries weak (b ++ [(n, s)]) sq = Outcome.ok (sqm.set n (weak, s)) := by
  induction b with
  | nil =>
    intro weak n s sq sqm hn h
    simp only [fillEntries, Outcome.ok.injEq] at h
    subst h
    simp [fillEntries, if_pos hn]
  | cons e eb ih =>
    intro weak n s sq sqm hn h
    simp only [List.cons_append, fillEntries] at h ⊢
    by_cases hi : e.1 < sq.length
    · rw [if_pos hi] at h
      rw [if_pos hi]
      exact ih weak n s _ _ hn h
    · rw [if_neg hi] at h
      exact absurd h (by simp)

theorem fillSeq_push (hs : Hashes) :
    ∀ (w n : Nat) (s : List Nat) (sq sq2 : List (Nat × List Nat)),
      (∀ p ∈ hs, ∀ e ∈ p.2, e.1 ≠ n) → n < sq.length →
      fillSeq hs sq = Outcome.ok sq2 →
      fillSeq (hs.push w (n, s)) sq = Outcome.ok (sq2.set n (w, s)) := by
  induction hs with
  | nil =>
    intro w n s sq sq2 _ hn h
    simp only [fillSeq, Outcome.ok.injEq] at h
    subst h
    simp [Hashes.push, fillSeq, fillEntries, if_pos hn]
  | cons p rest ih =>
    intro w n s sq sq2 hne hn h
    simp only [fillSeq] at h
    cases h2 : fillEntries p.1 p.2 sq with
    | ok sqm =>
      rw [h2] at h
      rcases p with ⟨pw, pb⟩
      by_cases hw : pw = w
      · subst hw
        simp only [Hashes.push, if_pos rfl, fillSeq]
        have hnm : n < sqm.length := by
          rwa [fillEntries_ok_length pb pw sq sqm h2]
        rw [fillEntries_append_single pb pw n s sq sqm hnm h2]
        exact fillSeq_set_comm rest n (pw, s) sqm sq2
          (fun q hq e he => hne q (by simp [hq]) e he) h
      · simp only [Hashes.push, if_neg hw, fillSeq, h2]
        exact ih w n s sqm sq2 (fun q hq e he => hne q (by simp [hq]) e he)
          (by rwa [fillEntries_ok_length pb pw sq sqm h2]) h
    | error => rw [h2] at h; exact absurd h (by simp)
    | panic => rw [h2] at h; exact absurd h (by simp)

theorem push_bucket_bound (hs : Hashes) :
    ∀ (w : Nat) (v : Nat × List Nat) (n : Nat),
      (∀ p ∈ hs, ∀ e ∈ p.2, e.1 < n) → v.1 < n →
      ∀ p ∈ hs.push w v, ∀ e ∈ p.2, e.1 < n := by
  induction hs with
  | nil =>
    intro w v n _ hv p hp e he
    simp only [Hashes.push, List.mem_singleton] at hp
    subst hp
    simp only [List.mem_singleton] at he
    subst he
    exact hv
  | cons q rest ih =>
    intro w v n hb hv p hp e he
    rcases q with ⟨qw, qb⟩
    simp only [Hashes.push] at hp
    by_cases hw : qw = w
    · rw [if_pos hw] at hp
      rcases List.mem_cons.1 hp with hp1 | hp2
      · subst hp1
        rcases List.mem_append.1 he with h1 | h2
        · exact hb ⟨qw, qb⟩ (by simp) e h1
        · simp only [List.mem_singleton] at h2
          subst h2
          exact hv
      · exact hb p (by simp [hp2]) e he
    · rw [if_neg hw] at hp
      rcases List.mem_cons.1 hp with hp1 | hp2
      · subst hp1
        exact hb ⟨qw, qb⟩ (by simp) e he
      · exact ih w v n (fun r hr => hb r (by simp [hr])) hv p hp2 e he

theorem hashSeqAux_bound (l : List (Nat × List Nat)) :
    ∀ (idx : Nat) (h : Hashes) (n : Nat),
      (∀ p ∈ h, ∀ e ∈ p.2, e.1 < n) → idx + l.length ≤ n →
      ∀ p ∈ hashSeqAux l idx h, ∀ e ∈ p.2, e.1 < n := by
  induction l with
  | nil =>
    intro idx h n hb _
    exact hb
  | cons x rest ih =>
    intro idx h n hb hle
    rcases x with ⟨w, s⟩
    simp only [List.length_cons] at hle
    simp only [hashSeqAux]
    exact ih (idx + 1) _ n
      (push_bucket_bound h w (idx, s) n hb (show idx < n by omega)) (by omega)

theorem hashSeqAux_append (l : List (Nat × List Nat)) :
    ∀ (x : Nat × List Nat) (idx : Nat) (h : Hashes),
      hashSeqAux (l ++ [x]) idx h =
        (hashSeqAux l idx h).push x.1 (idx + l.length, x.2) := by
  induction l with
  | nil =>
    intro x idx h
    rcases x with ⟨w, s⟩
    simp [hashSeqAux]
  | cons y rest ih =>
    intro x idx h
    rcases y with ⟨w, s⟩
    simp only [List.cons_append, List.append_eq, hashSeqAux, ih, List.length_cons]
    rw [show idx + 1 + rest.length = idx + (rest.length + 1) from by omega]

theorem fillEntries_append_tail (b : List (Nat × List Nat)) :
    ∀ (weak : Nat) (sq sq2 t : List (Nat × List Nat)),
      fillEntries weak b sq = Outcome.ok sq2 →
      fillEntries weak b (sq ++ t) = Outcome.ok (sq2 ++ t) := by
  induction b with
  | nil =>
    intro weak sq sq2 t h
    simp only [fillEntries, Outcome.ok.injEq] at h ⊢
    rw [h]
  | cons e eb ih =>
    intro weak sq sq2 t h
    simp only [fillEntries] at h ⊢
    by_cases hi : e.1 < sq.length
    · rw [if_pos hi] at h
      rw [if_pos (by rw [List.length_append]; omega), List.set_append_left _ _ hi]
      exact ih weak _ _ t h
    · rw [if_neg hi] at h
      exact absurd h (by simp)

theorem fillSeq_append_tail (hs : Hashes) :
    ∀ (sq sq2 t : List (Nat × List Nat)),
      fillSeq hs sq = Outcome.ok sq2 →
      fillSeq hs (sq ++ t) = Outcome.ok (sq2 ++ t) := by
  induction hs with
  | nil =>
    intro sq sq2 t h
    simp only [fillSeq, Outcome.ok.injEq] at h ⊢
    rw [h]
  | cons p rest ih =>
    intro sq sq2 t h
    simp only [fillSeq] at h ⊢
    cases h2 : fillEntries p.1 p.2 sq with
    | ok sqm =>
      rw [h2] at h
      rw [fillEntries_append_tail p.2 p.1 sq sqm t h2]
      exact ih _ _ t h
    | error => rw [h2] at h; exact absurd h (by simp)
    | panic => rw [h2] at h; exact absurd h (by simp)

/-- Scattering the canonically built hash table back into a dense vector
recovers the original block sequence. -/
theorem fillSeq_hashSeq (seq : List (Nat × List Nat)) :
    fillSeq (hashSeq seq) (List.replicate seq.length ((0 : Nat), List.replicate 16 (0 : Nat))) =
      Outcome.ok seq := by
  induction seq using List.reverseRecOn with
  | nil => simp [hashSeq, hashSeqAux, fillSeq]
  | append_singleton seq x ih =>
    have hb : ∀ p ∈ hashSeq seq, ∀ e ∈ p.2, e.1 < seq.length :=
      hashSeqAux_bound seq 0 [] seq.length (by simp) (by omega)
    have h1 : fillSeq (hashSeq seq)
        (List.replicate seq.length ((0 : Nat), List.replicate 16 (0 : Nat)) ++
          [((0 : Nat), List.replicate 16 (0 : Nat))]) =
        Outcome.ok (seq ++ [((0 : Nat), List.replicate 16 (0 : Nat))]) :=
      fillSeq_append_tail _ _ _ _ ih
    have h2 := fillSeq_push (hashSeq seq) x.1 seq.length x.2 _ _
      (fun p hp e he => Nat.ne_of_lt (hb p hp e he)) (by simp) h1
    rw [hashSeq, hashSeqAux_append, Nat.zero_add, ← hashSeq]
    rw [List.length_append, List.length_singleton, List.replicate_succ']
    rw [h2]
    rw [List.set_append_right _ _ (le_refl seq.length)]
    simp

/-- `compress_to` of a canonically built digest. -/
theorem compress_digest (seq : List (Nat × List Nat)) (bs fs : Nat) (hbs1 : 1 ≤ bs)
    (hcount : seq.length = (fs + bs - 1) / bs) :
    BlockHashes.compress_to ⟨hashSeq seq, bs, fs⟩ =
      Outcome.ok (writeU32 fs ++ writeU32 bs ++
        (seq.map (fun e => writeU32 e.1 ++ e.2)).flatten) := by
  rw [BlockHashes.compress_to]
  simp only
  rw [if_neg (by omega)]
  rw [← hcount, fillSeq_hashSeq]

theorem expandBlocksAux_spec (seq : List (Nat × List Nat)) :
    ∀ (idx : Nat) (ibuf sbuf tail : List Nat) (h : Hashes),
      ibuf.length ≤ 4 → sbuf.length ≤ 16 →
      (∀ e ∈ seq, e.1 < 2 ^ 32 ∧ e.2.length = 16) →
      expandBlocksAux seq.length idx ibuf sbuf
        ((seq.map (fun e => writeU32 e.1 ++ e.2)).flatten ++ tail) h =
      hashSeqAux seq idx h := by
  induction seq with
  | nil =>
    intro idx ibuf sbuf tail h _ _ _
    simp [expandBlocksAux, hashSeqAux]
  | cons e rest ih =>
    intro idx ibuf sbuf tail h hib hsb hbound
    obtain ⟨he1, he2⟩ := hbound e (by simp)
    simp only [List.map_cons, List.flatten_cons, List.length_cons, expandBlocksAux]
    rw [List.append_assoc, List.append_assoc]
    rw [readBuf_full ibuf (writeU32 e.1) _ 4 (writeU32_length e.1) hib]
    simp only
    rw [readBuf_full sbuf e.2 _ 16 he2 hsb]
    simp only
    rw [readU32_writeU32 e.1 he1]
    rcases e with ⟨ew, es⟩
    rw [show hashSeqAux ((ew, es) :: rest) idx h = hashSeqAux rest (idx + 1) (h.push ew (idx, es))
      from rfl]
    exact ih (idx + 1) _ _ tail _ (by rw [writeU32_length]) (by rw [he2])
      (fun x hx => hbound x (by simp [hx]))

/-- `expand_from` of the encoding of a canonically built digest. -/
theorem expand_digest (seq : List (Nat × List Nat)) (bs fs : Nat) (hbs1 : 1 ≤ bs)
    (hbs2 : bs < 2 ^ 32) (hfs : fs < 2 ^ 32)
    (hcount : seq.length = (fs + bs - 1) / bs)
    (hentries : ∀ e ∈ seq, e.1 < 2 ^ 32 ∧ e.2.length = 16) :
    BlockHashes.expand_from (writeU32 fs ++ writeU32 bs ++
        (seq.map (fun e => writeU32 e.1 ++ e.2)).flatten) =
      Outcome.ok ⟨hashSeq seq, bs, fs⟩ := by
  rw [BlockHashes.expand_from]
  rw [List.append_assoc]
  rw [readBuf_full (List.replicate 4 0) (writeU32 fs) _ 4 (writeU32_length fs) (by simp)]
  simp only
  rw [readBuf_full (writeU32 fs) (writeU32 bs) _ 4 (writeU32_length bs) (by rw [writeU32_length])]
  simp only
  rw [readU32_writeU32 fs hfs, readU32_writeU32 bs hbs2]
  rw [if_neg (by omega)]
  rw [← hcount]
  rw [show (seq.map (fun e => writeU32 e.1 ++ e.2)).flatten =
    (seq.map (fun e => writeU32 e.1 ++ e.2)).flatten ++ [] from (List.append_nil _).symm]
  rw [expandBlocksAux_spec seq 0 (writeU32 bs) (List.replicate 16 0) [] []
    (by rw [writeU32_length]) (by simp) hentries]
  rfl

theorem insert_expand_compress (i : Insert) (rest : List Nat)
    (h1 : i.position < 2 ^ 32) (h2 : i.data.length < 2 ^ 32) :
    Insert.expand_from (i.compress_to ++ rest) = Outcome.ok (i, rest) := by
  rw [Insert.compress_to, Insert.expand_from]
  rw [List.append_assoc, List.append_assoc]
  rw [readExact_append (writeU32 i.position) _ 4 (writeU32_length _)]
  simp only
  rw [readExact_append (writeU32 i.data.length) _ 4 (writeU32_length _)]
  simp only
  rw [readU32_writeU32 _ h2]
  rw [readExact_append i.data rest i.data.length rfl]
  simp only
  rw [readU32_writeU32 _ h1]

theorem delete_expand_compress (d : Delete) (rest : List Nat)
    (h1 : d.position < 2 ^ 32) (h2 : d.len < 2 ^ 32) :
    Delete.expand_from (d.compress_to ++ rest) = Outcome.ok (d, rest) := by
  rw [Delete.compress_to, Delete.expand_from]
  rw [List.append_assoc]
  rw [readExact_append (writeU32 d.position) _ 4 (writeU32_length _)]
  simp only
  rw [readExact_append (writeU32 d.len) rest 4 (writeU32_length _)]
  simp only
  rw [readU32_writeU32 _ h1, readU32_writeU32 _ h2]

theorem expandInserts_spec (l : List Insert) :
    ∀ (rest : List Nat),
      (∀ i ∈ l, i.position < 2 ^ 32 ∧ i.data.length < 2 ^ 32) →
      expandInserts l.length ((l.map Insert.compress_to).flatten ++ rest) =
        Outcome.ok (l, rest) := by
  induction l with
  | nil => intro rest _; simp [expandInserts]
  | cons i tl ih =>
    intro rest hb
    obtain ⟨h1, h2⟩ := hb i (by simp)
    simp only [List.map_cons, List.flatten_cons, List.length_cons, expandInserts]
    rw [List.append_assoc]
    simp only [insert_expand_compress i _ h1 h2]
    simp only [ih rest (fun x hx => hb x (by simp [hx]))]

theorem expandDeletes_spec (l : List Delete) :
    ∀ (rest : List Nat),
      (∀ d ∈ l, d.position < 2 ^ 32 ∧ d.len < 2 ^ 32) →
      expandDeletes l.length ((l.map Delete.compress_to).flatten ++ rest) =
        Outcome.ok (l, rest) := by
  induction l with
  | nil => intro rest _; simp [expandDeletes]
  | cons d tl ih =>
    intro rest hb
    obtain ⟨h1, h2⟩ := hb d (by simp)
    simp only [List.map_cons, List.flatten_cons, List.length_cons, expandDeletes]
    rw [List.append_assoc]
    simp only [delete_expand_compress d _ h1 h2]
    simp only [ih rest (fun x hx => hb x (by simp [hx]))]

/-- `Diff::expand_from` of `Diff::compress_to`. -/
theorem diff_expand_compress (d : Diff)
    (hic : d.inserts.length < 2 ^ 32) (hdc : d.deletes.length < 2 ^ 32)
    (hins : ∀ i ∈ d.inserts, i.position < 2 ^ 32 ∧ i.data.length < 2 ^ 32)
    (hdel : ∀ x ∈ d.deletes, x.position < 2 ^ 32 ∧ x.len < 2 ^ 32) :
    Diff.expand_from d.compress_to = Outcome.ok d := by
  rw [Diff.compress_to, Diff.expand_from]
  simp only [List.append_assoc]
  rw [readExact_append (writeU32 d.inserts.length) _ 4 (writeU32_length _)]
  simp only
  rw [readU32_writeU32 _ hic]
  rw [show writeU32 d.deletes.length ++ (List.map Delete.compress_to d.deletes).flatten =
    writeU32 d.deletes.length ++ ((List.map Delete.compress_to d.deletes).flatten ++ [])
    from by rw [List.append_nil]]
  simp only [expandInserts_spec d.inserts _ hins]
  rw [readExact_append (writeU32 d.deletes.length) _ 4 (writeU32_length _)]
  simp only
  rw [readU32_writeU32 _ hdc]
  simp only [expandDeletes_spec d.deletes [] hdel]

/-- C5: encode/decode round trips.  For every digest built canonically
from a per-block `(weak, strong)` sequence with 32-bit sizes and 16-byte
strong hashes, and every edit script with 32-bit counts, positions and
lengths, decoding the encoding reconstructs an equal value. -/
theorem c5_codec_round_trip (seq : List (Nat × List Nat)) (bs fs : Nat) (d : Diff)
    (hbs1 : 1 ≤ bs) (hbs2 : bs < 2 ^ 32) (hfs : fs < 2 ^ 32)
    (hcount : seq.length = (fs + bs - 1) / bs)
    (hentries : ∀ e ∈ seq, e.1 < 2 ^ 32 ∧ e.2.length = 16)
    (hic : d.inserts.length < 2 ^ 32) (hdc : d.deletes.length < 2 ^ 32)
    (hins : ∀ i ∈ d.inserts, i.position < 2 ^ 32 ∧ i.data.length < 2 ^ 32)
    (hdel : ∀ x ∈ d.deletes, x.position < 2 ^ 32 ∧ x.len < 2 ^ 32) :
    (∃ out, BlockHashes.compress_to ⟨hashSeq seq, bs, fs⟩ = Outcome.ok out ∧
      BlockHashes.expand_from out = Outcome.ok ⟨hashSeq seq, bs, fs⟩) ∧
    Diff.expand_from d.compress_to = Outcome.ok d := by
  refine ⟨⟨_, compress_digest seq bs fs hbs1 hcount, ?_⟩,
    diff_expand_compress d hic hdc hins hdel⟩
  exact expand_digest seq bs fs hbs1 hbs2 hfs hcount hentries

/-- Witness for C5 at a concrete digest and script. -/
theorem c5_codec_round_trip_witness :
    (∃ out,
      BlockHashes.compress_to
          ⟨hashSeq [(7, List.replicate 16 1), (9, List.replicate 16 2)], 2, 3⟩ =
        Outcome.ok out ∧
      BlockHashes.expand_from out =
        Outcome.ok
          ⟨hashSeq [(7, List.replicate 16 1), (9, List.replicate 16 2)], 2, 3⟩) ∧
    Diff.expand_from (Diff.compress_to ⟨[⟨1, [5]⟩], [⟨2, 3⟩]⟩) =
      Outcome.ok ⟨[⟨1, [5]⟩], [⟨2, 3⟩]⟩ :=
  c5_codec_round_trip [(7, List.replicate 16 1), (9, List.replicate 16 2)] 2 3
    ⟨[⟨1, [5]⟩], [⟨2, 3⟩]⟩ (by decide) (by decide) (by decide) (by decide)
    (by decide) (by decide) (by decide) (by decide) (by decide)

/-! Window coherence (C2, C9, C10): a reachable window is a positioned
view of the underlying stream. -/

/-- Coherence of a window with the byte stream `d` it reads:
`bytes_read - offset` is the stream index where `front` begins, the
buffers and the pending reader are the corresponding pieces of `d`, and
the front base is block-aligned. -/
def WInv (d : List Nat) (w : Window) : Prop :=
  w.offset ≤ w.bytes_read ∧
  w.offset ≤ w.front.length ∧
  w.front = (d.drop (w.bytes_read - w.offset)).take w.block_size ∧
  w.back = (d.drop (w.bytes_read - w.offset + w.block_size)).take w.block_size ∧
  w.reader = d.drop (w.bytes_read - w.offset + 2 * w.block_size) ∧
  w.block_size ∣ (w.bytes_read - w.offset) ∧
  w.bytes_read - w.offset ≤ d.length

theorem getD_drop_take (d : List Nat) (n m i : Nat) (hi : i < m) (hlen : n + i < d.length) :
    ((d.drop n).take m).getD i 0 = d.getD (n + i) 0 := by
  rw [List.getD_eq_getElem?_getD, List.getD_eq_getElem?_getD, List.getElem?_take, if_pos hi,
    List.getElem?_drop]

theorem winv_new (d : List Nat) (B : Nat) : WInv d (Window.new d B) := by
  refine ⟨Nat.le_refl 0, by simp [Window.new], by simp [Window.new], by simp [Window.new],
    ?_, by simp [Window.new], by simp [Window.new]⟩
  simp [Window.new, List.drop_drop, two_mul]

theorem winv_p_le (d : List Nat) (w : Window) (hi : WInv d w) : w.bytes_read ≤ d.length := by
  obtain ⟨h1, h2, hf, hb, hr, hdvd, hle⟩ := hi
  have hfl : w.front.length = min w.block_size (d.length - (w.bytes_read - w.offset)) := by
    rw [hf, List.length_take, List.length_drop]
  omega

theorem winv_mu (d : List Nat) (w : Window) (hi : WInv d w) :
    w.frame_size + w.reader.length = d.length - w.bytes_read := by
  obtain ⟨h1, h2, hf, hb, hr, hdvd, hle⟩ := hi
  have hfl : w.front.length = min w.block_size (d.length - (w.bytes_read - w.offset)) := by
    rw [hf, List.length_take, List.length_drop]
  have hbl : w.back.length =
      min w.block_size (d.length - (w.bytes_read - w.offset + w.block_size)) := by
    rw [hb, List.length_take, List.length_drop]
  have hrl : w.reader.length = d.length - (w.bytes_read - w.offset + 2 * w.block_size) := by
    rw [hr, List.length_drop]
  have : w.frame_size = w.front.length + w.back.length - w.offset := rfl
  omega

theorem winv_fs_zero_iff (d : List Nat) (w : Window) (hi : WInv d w) :
    w.frame_size = 0 ↔ (d.length ≤ w.bytes_read ∨ w.block_size = 0) := by
  obtain ⟨h1, h2, hf, hb, hr, hdvd, hle⟩ := hi
  have hfl : w.front.length = min w.block_size (d.length - (w.bytes_read - w.offset)) := by
    rw [hf, List.length_take, List.length_drop]
  have hbl : w.back.length =
      min w.block_size (d.length - (w.bytes_read - w.offset + w.block_size)) := by
    rw [hb, List.length_take, List.length_drop]
  have : w.frame_size = w.front.length + w.back.length - w.offset := rfl
  omega

theorem advance_stuck (w : Window) (h2 : w.offset ≤ w.front.length)
    (hfs : w.frame_size = 0) : w.advance = ((none, none), w) := by
  have hfs2 : w.front.length + w.back.length - w.offset = 0 := hfs
  rw [Window.advance]
  by_cases hf0 : w.front.length = 0
  · rw [if_pos hf0]
  · rw [if_neg hf0, if_pos (by omega : w.front.length ≤ w.offset),
      if_pos (by omega : w.back.length = 0)]

theorem winv_frameList (d : List Nat) (w : Window) (hi : WInv d w) :
    frameList w = (d.drop w.bytes_read).take w.block_size := by
  obtain ⟨h1, h2, hf, hb, hr, hdvd, hle⟩ := hi
  have hoffB : w.offset ≤ w.block_size := by
    have hfl : w.front.length = min w.block_size (d.length - (w.bytes_read - w.offset)) := by
      rw [hf, List.length_take, List.length_drop]
    omega
  rw [frameList, Window.frame]
  simp only
  rw [hf, hb]
  rw [List.drop_take, List.drop_drop]
  rw [List.take_take, min_eq_left hoffB]
  have hsplit : w.bytes_read - w.offset + w.block_size = w.bytes_read + (w.block_size - w.offset) := by
    omega
  rw [hsplit]
  rw [show (d.drop (w.bytes_read + (w.block_size - w.offset))) =
    ((d.drop w.bytes_read).drop (w.block_size - w.offset)) from by rw [List.drop_drop]]
  rw [show w.bytes_read - w.offset + w.offset = w.bytes_read from by omega]
  rw [← List.take_add]
  rw [show w.block_size - w.offset + w.offset = w.block_size from by omega]

theorem winv_boundary (d : List Nat) (w : Window) (hi : WInv d w)
    (hfs : w.frame_size ≠ 0) :
    w.on_boundry = true ↔ w.block_size ∣ w.bytes_read := by
  obtain ⟨h1, h2, hf, hb, hr, hdvd, hle⟩ := hi
  have hfl : w.front.length = min w.block_size (d.length - (w.bytes_read - w.offset)) := by
    rw [hf, List.length_take, List.length_drop]
  have hbl : w.back.length =
      min w.block_size (d.length - (w.bytes_read - w.offset + w.block_size)) := by
    rw [hb, List.length_take, List.length_drop]
  have hfs2 : w.front.length + w.back.length - w.offset ≠ 0 := hfs
  have hp : w.bytes_read = (w.bytes_read - w.offset) + w.offset := by omega
  constructor
  · intro hbd
    rw [Window.on_boundry] at hbd
    simp only [Bool.or_eq_true, beq_iff_eq] at hbd
    rcases hbd with h0 | hofl2
    · rw [hp, h0]
      rw [h0] at hdvd
      simpa using hdvd
    · have hflB : w.front.length = w.block_size := by omega
      rw [hofl2, hflB] at hdvd
      rw [hp, hofl2, hflB]
      exact Nat.dvd_add hdvd (Nat.dvd_refl _)
  · intro hdp
    have hdoff : w.block_size ∣ w.offset := by
      have := (Nat.dvd_add_right hdvd).1 (hp ▸ hdp)
      exact this
    rw [Window.on_boundry]
    rcases Nat.eq_zero_or_pos w.offset with h0 | hpos
    · simp [h0]
    · have hBle : w.block_size ≤ w.offset := Nat.le_of_dvd hpos hdoff
      have : w.offset = w.front.length := by omega
      simp [this]

theorem advance_spec (d : List Nat) (w : Window) (hi : WInv d w)
    (hfs : w.frame_size ≠ 0) :
    ∃ w2, w.advance = ((some (d.getD w.bytes_read 0),
        if w.bytes_read + w.block_size < d.length
        then some (d.getD (w.bytes_read + w.block_size) 0) else none), w2) ∧
      WInv d w2 ∧ w2.bytes_read = w.bytes_read + 1 ∧ w2.block_size = w.block_size := by
  obtain ⟨h1, h2, hf, hb, hr, hdvd, hle⟩ := hi
  have hfl : w.front.length = min w.block_size (d.length - (w.bytes_read - w.offset)) := by
    rw [hf, List.length_take, List.length_drop]
  have hbl : w.back.length =
      min w.block_size (d.length - (w.bytes_read - w.offset + w.block_size)) := by
    rw [hb, List.length_take, List.length_drop]
  have hrl : w.reader.length = d.length - (w.bytes_read - w.offset + 2 * w.block_size) := by
    rw [hr, List.length_drop]
  have hfs2 : w.front.length + w.back.length - w.offset ≠ 0 := hfs
  have hfront_pos : ¬ w.front.length = 0 := by omega
  rw [Window.advance, if_neg hfront_pos]
  by_cases hoff : w.front.length ≤ w.offset
  · have hoffeq : w.offset = w.front.length := le_antisymm h2 hoff
    have hback_pos : ¬ w.back.length = 0 := by omega
    have hBpos : 1 ≤ w.block_size := by omega
    have hLbound : w.bytes_read - w.offset + w.block_size < d.length := by omega
    have hflB : w.front.length = w.block_size := by omega
    have hbase : w.bytes_read - w.offset + w.block_size = w.bytes_read := by omega
    rw [if_pos hoff, if_neg hback_pos]
    have hload : w.load_next_block =
        ⟨w.back, w.reader.take w.block_size, w.block_size, 0, w.bytes_read,
          w.reader.drop w.block_size⟩ := rfl
    refine ⟨⟨w.back, w.reader.take w.block_size, w.block_size, 1, w.bytes_read + 1,
      w.reader.drop w.block_size⟩, ?_, ?_, rfl, rfl⟩
    · rw [hload, Window.advance_core]
      have htail : List.getD w.back 0 0 = d.getD w.bytes_read 0 := by
        rw [hb, hbase]
        have hgd := getD_drop_take d w.bytes_read w.block_size 0 (by omega) (by omega)
        simpa using hgd
      have hhead : Window.get_head
          ⟨w.back, w.reader.take w.block_size, w.block_size, 0, w.bytes_read,
            w.reader.drop w.block_size⟩ =
          (if w.bytes_read + w.block_size < d.length
           then some (d.getD (w.bytes_read + w.block_size) 0) else none) := by
        have hgh : Window.get_head
            ⟨w.back, w.reader.take w.block_size, w.block_size, 0, w.bytes_read,
              w.reader.drop w.block_size⟩ =
            if 0 + w.block_size - w.back.length < (w.reader.take w.block_size).length
            then some ((w.reader.take w.block_size).getD (0 + w.block_size - w.back.length) 0)
            else none := rfl
        rw [hgh]
        have hbl2 : (w.reader.take w.block_size).length =
            min w.block_size (d.length - (w.bytes_read + w.block_size)) := by
          rw [hr, List.length_take, List.length_drop, ← hbase]
          congr 2
          omega
        by_cases hcond : w.bytes_read + w.block_size < d.length
        · rw [if_pos (by omega), if_pos hcond]
          have hidx : 0 + w.block_size - w.back.length = 0 := by omega
          rw [hidx, hr]
          have hgd := getD_drop_take d (w.bytes_read - w.offset + 2 * w.block_size)
            w.block_size 0 (by omega) (by omega)
          rw [hgd]
          congr 2
          omega
        · rw [if_neg (by omega), if_neg hcond]
      rw [htail, hhead]
    · refine ⟨?_, ?_, ?_, ?_, ?_, ?_, ?_⟩
      · show 1 ≤ w.bytes_read + 1
        omega
      · show 1 ≤ w.back.length
        omega
      · show w.back = (d.drop (w.bytes_read + 1 - 1)).take w.block_size
        rw [show w.bytes_read + 1 - 1 = w.bytes_read from by omega, hb, hbase]
      · show w.reader.take w.block_size =
          (d.drop (w.bytes_read + 1 - 1 + w.block_size)).take w.block_size
        rw [hr, show w.bytes_read + 1 - 1 + w.block_size =
          w.bytes_read - w.offset + 2 * w.block_size from by omega]
      · show w.reader.drop w.block_size = d.drop (w.bytes_read + 1 - 1 + 2 * w.block_size)
        rw [hr, List.drop_drop]
        congr 1
        omega
      · show w.block_size ∣ w.bytes_read + 1 - 1
        rw [show w.bytes_read + 1 - 1 = w.bytes_read - w.offset + w.block_size from by omega]
        exact Nat.dvd_add hdvd (Nat.dvd_refl _)
      · show w.bytes_read + 1 - 1 ≤ d.length
        omega
  · rw [if_neg hoff]
    refine ⟨⟨w.front, w.back, w.block_size, w.offset + 1, w.bytes_read + 1, w.reader⟩,
      ?_, ?_, rfl, rfl⟩
    · rw [Window.advance_core]
      have htail : w.front.getD w.offset 0 = d.getD w.bytes_read 0 := by
        rw [hf]
        have hgd := getD_drop_take d (w.bytes_read - w.offset) w.block_size w.offset
          (by omega) (by omega)
        rw [hgd]
        congr 1
        omega
      have hhead : w.get_head =
          (if w.bytes_read + w.block_size < d.length
           then some (d.getD (w.bytes_read + w.block_size) 0) else none) := by
        have hgh : w.get_head =
            if w.offset + w.block_size - w.front.length < w.back.length
            then some (w.back.getD (w.offset + w.block_size - w.front.length) 0)
            else none := rfl
        rw [hgh]
        by_cases hcond : w.bytes_read + w.block_size < d.length
        · have hflB : w.front.length = w.block_size := by omega
          have hidx : w.offset + w.block_size - w.front.length = w.offset := by omega
          rw [hidx, if_pos (by omega), if_pos hcond, hb]
          have hgd := getD_drop_take d (w.bytes_read - w.offset + w.block_size)
            w.block_size w.offset (by omega) (by omega)
          rw [hgd]
          congr 2
          omega
        · rw [if_neg (by omega), if_neg hcond]
      rw [htail, hhead]
    · refine ⟨?_, ?_, ?_, ?_, ?_, ?_, ?_⟩
      · show w.offset + 1 ≤ w.bytes_read + 1
        omega
      · show w.offset + 1 ≤ w.front.length
        omega
      · show w.front = (d.drop (w.bytes_read + 1 - (w.offset + 1))).take w.block_size
        rw [show w.bytes_read + 1 - (w.offset + 1) = w.bytes_read - w.offset from by omega]
        exact hf
      · show w.back =
          (d.drop (w.bytes_read + 1 - (w.offset + 1) + w.block_size)).take w.block_size
        rw [show w.bytes_read + 1 - (w.offset + 1) = w.bytes_read - w.offset from by omega]
        exact hb
      · show w.reader = d.drop (w.bytes_read + 1 - (w.offset + 1) + 2 * w.block_size)
        rw [show w.bytes_read + 1 - (w.offset + 1) = w.bytes_read - w.offset from by omega]
        exact hr
      · show w.block_size ∣ w.bytes_read + 1 - (w.offset + 1)
        rw [show w.bytes_read + 1 - (w.offset + 1) = w.bytes_read - w.offset from by omega]
        exact hdvd
      · show w.bytes_read + 1 - (w.offset + 1) ≤ d.length
        omega

/-- Witness for C4 at a concrete window. -/
theorem c4_rolling_hash_law_witness :
    ([7, 2, 9] : List Nat) ≠ [] ∧ ([7, 2, 9] : List Nat).length ≤ 65535 ∧
    (((RollingHash.new [7, 2, 9]).roll_hash (some 5) (([7, 2, 9] : List Nat).headD 0)).get_hash =
        RollingHash.hash_buffer (([7, 2, 9] : List Nat).tail ++ [5]) ∧
      ((RollingHash.new [7, 2, 9]).roll_hash none (([7, 2, 9] : List Nat).headD 0)).get_hash =
        RollingHash.hash_buffer ([7, 2, 9] : List Nat).tail) :=
  ⟨by decide, by decide, c4_rolling_hash_law [7, 2, 9] 5 (by decide) (by decide)⟩

/-! Chunk decomposition and block-count arithmetic for the digest-rebuild
and script-invariant proofs. -/

/-- `chunksAux` of the empty list is empty for every fuel. -/
theorem chunksAux_nil (B fuel : Nat) : chunksAux B fuel [] = [] := by
  cases fuel <;> rfl

/-- The fuel of `chunksAux` is irrelevant once it covers the list length. -/
theorem chunksAux_fuel (B : Nat) (hB : 1 ≤ B) :
    ∀ (f g : Nat) (l : List Nat), l.length ≤ f → l.length ≤ g →
      chunksAux B f l = chunksAux B g l := by
  intro f
  induction f with
  | zero =>
    intro g l hf _
    have : l = [] := List.eq_nil_of_length_eq_zero (by omega)
    subst this
    rw [chunksAux_nil, chunksAux_nil]
  | succ f ih =>
    intro g l hf hg
    cases l with
    | nil => rw [chunksAux_nil, chunksAux_nil]
    | cons x xs =>
      cases g with
      | zero => simp at hg
      | succ g =>
        simp only [List.length_cons] at hf hg
        simp only [chunksAux]
        rw [if_neg (by omega), if_neg (by omega)]
        congr 1
        exact ih g ((x :: xs).drop B)
          (by simp only [List.length_drop, List.length_cons]; omega)
          (by simp only [List.length_drop, List.length_cons]; omega)

/-- Unfolding `chunks` on a nonempty list. -/
theorem chunks_cons (B : Nat) (hB : 1 ≤ B) (x : Nat) (xs : List Nat) :
    chunks B (x :: xs) = (x :: xs).take B :: chunks B ((x :: xs).drop B) := by
  rw [chunks]
  simp only [List.length_cons, chunksAux]
  rw [if_neg (by omega)]
  congr 1
  rw [chunks]
  exact chunksAux_fuel B hB xs.length ((x :: xs).drop B).length ((x :: xs).drop B)
    (by simp only [List.length_drop, List.length_cons]; omega) (Nat.le_refl _)

/-- The chunks of `BlockHashes::new` partition the source: their lengths
sum to the source length. -/
theorem chunks_length_sum_aux (B : Nat) (hB : 1 ≤ B) :
    ∀ (n : Nat) (l : List Nat), l.length ≤ n →
      ((chunks B l).map List.length).sum = l.length := by
  intro n
  induction n with
  | zero =>
    intro l hl
    have : l = [] := List.eq_nil_of_length_eq_zero (by omega)
    subst this
    rfl
  | succ n ih =>
    intro l hl
    cases l with
    | nil => rfl
    | cons x xs =>
      simp only [List.length_cons] at hl
      rw [chunks_cons B hB, List.map_cons, List.sum_cons,
        ih ((x :: xs).drop B) (by simp only [List.length_drop, List.length_cons]; omega)]
      simp only [List.length_take, List.length_drop, List.length_cons]
      omega

/-- The chunks of `BlockHashes::new` partition the source. -/
theorem chunks_length_sum (B : Nat) (hB : 1 ≤ B) (l : List Nat) :
    ((chunks B l).map List.length).sum = l.length :=
  chunks_length_sum_aux B hB l.length l (Nat.le_refl _)

/-- The number of blocks read by `BlockHashes::new` is the rounded-up
quotient. -/
theorem chunks_length_aux (B : Nat) (hB : 1 ≤ B) :
    ∀ (n : Nat) (l : List Nat), l.length ≤ n →
      (chunks B l).length = (l.length + B - 1) / B := by
  intro n
  induction n with
  | zero =>
    intro l hl
    have : l = [] := List.eq_nil_of_length_eq_zero (by omega)
    subst this
    simp only [List.length_nil]
    rw [show (0 + B - 1) = B - 1 from by omega, Nat.div_eq_of_lt (by omega)]
    rfl
  | succ n ih =>
    intro l hl
    cases l with
    | nil =>
      simp only [List.length_nil]
      rw [show (0 + B - 1) = B - 1 from by omega, Nat.div_eq_of_lt (by omega)]
      rfl
    | cons x xs =>
      simp only [List.length_cons] at hl
      rw [chunks_cons B hB, List.length_cons,
        ih ((x :: xs).drop B) (by simp only [List.length_drop, List.length_cons]; omega)]
      simp only [List.length_drop, List.length_cons]
      by_cases hle : xs.length + 1 ≤ B
      · rw [show xs.length + 1 - B = 0 from by omega]
        rw [show (0 + B - 1) = B - 1 from by omega, Nat.div_eq_of_lt (by omega)]
        rw [show xs.length + 1 + B - 1 = B * 1 + (xs.length + 1 - 1) from by omega,
          Nat.mul_add_div (by omega), Nat.div_eq_of_lt (by omega)]
      · rw [show xs.length + 1 + B - 1 = (xs.length + 1 - B + B - 1) + B from by omega,
          Nat.add_div_right _ (by omega)]

/-- The number of blocks read by `BlockHashes::new`. -/
theorem chunks_length (B : Nat) (hB : 1 ≤ B) (l : List Nat) :
    (chunks B l).length = (l.length + B - 1) / B :=
  chunks_length_aux B hB l.length l (Nat.le_refl _)

/-- The `k`-th chunk is the `block_size` slice of the source at offset
`k * block_size`. -/
theorem chunks_getElem_aux (B : Nat) (hB : 1 ≤ B) :
    ∀ (n : Nat) (l : List Nat) (k : Nat), l.length ≤ n → k * B < l.length →
      (chunks B l)[k]? = some ((l.drop (k * B)).take B) := by
  intro n
  induction n with
  | zero =>
    intro l k hl hk
    omega
  | succ n ih =>
    intro l k hl hk
    cases l with
    | nil => simp at hk
    | cons x xs =>
      rw [chunks_cons B hB]
      cases k with
      | zero => simp
      | succ j =>
        simp only [List.length_cons] at hl hk
        rw [List.getElem?_cons_succ]
        rw [ih ((x :: xs).drop B) j
          (by simp only [List.length_drop, List.length_cons]; omega)
          (by simp only [List.length_drop, List.length_cons]
              have hmul : (j + 1) * B = j * B + B := by ring
              omega)]
        rw [List.drop_drop]
        congr 3
        ring

/-- The `k`-th chunk of the source. -/
theorem chunks_getElem (B : Nat) (hB : 1 ≤ B) (l : List Nat) (k : Nat)
    (hk : k * B < l.length) :
    (chunks B l)[k]? = some ((l.drop (k * B)).take B) :=
  chunks_getElem_aux B hB l.length l k (Nat.le_refl _) hk

/-- The number of block boundaries strictly below `p` (block count of a
`p`-byte prefix, rounding up). -/
def cbiOf (B p : Nat) : Nat := (p + B - 1) / B

theorem cbiOf_zero (B : Nat) (hB : 1 ≤ B) : cbiOf B 0 = 0 := by
  rw [cbiOf, show (0 + B - 1) = B - 1 from by omega]
  exact Nat.div_eq_of_lt (by omega)

theorem cbiOf_dvd (B p : Nat) (hB : 1 ≤ B) (h : B ∣ p) : cbiOf B p = p / B := by
  obtain ⟨q, rfl⟩ := h
  rw [cbiOf, show B * q + B - 1 = B * q + (B - 1) from by omega,
    Nat.mul_add_div (by omega), Nat.div_eq_of_lt (by omega),
    Nat.mul_div_cancel_left q (by omega)]
  omega

theorem cbiOf_boundary_succ (B p : Nat) (hB : 1 ≤ B) (h : B ∣ p) :
    cbiOf B (p + 1) = p / B + 1 := by
  obtain ⟨q, rfl⟩ := h
  rw [cbiOf, show B * q + 1 + B - 1 = B * q + B from by omega,
    Nat.mul_add_div (by omega), Nat.div_self (by omega),
    Nat.mul_div_cancel_left q (by omega)]

theorem cbiOf_interior_succ (B p : Nat) (hB : 1 ≤ B) (h : ¬ B ∣ p) :
    cbiOf B (p + 1) = cbiOf B p := by
  obtain ⟨q, r, hqr, hrB⟩ : ∃ q r, p = B * q + r ∧ r < B :=
    ⟨p / B, p % B, ((Nat.div_add_mod p B).symm), Nat.mod_lt _ (by omega)⟩
  have hr0 : r ≠ 0 := by
    intro h0
    exact h ⟨q, by omega⟩
  have hmul : B * (q + 1) = B * q + B := by ring
  rw [cbiOf, cbiOf, show p + 1 + B - 1 = B * (q + 1) + r from by omega,
    show p + B - 1 = B * (q + 1) + (r - 1) from by omega,
    Nat.mul_add_div (by omega), Nat.mul_add_div (by omega),
    Nat.div_eq_of_lt hrB, Nat.div_eq_of_lt (by omega)]

theorem cbiOf_mono (B p q : Nat) (h : p ≤ q) : cbiOf B p ≤ cbiOf B q :=
  Nat.div_le_div_right (by omega)

/-! Script ordering invariants maintained by `Diff::add_insert` and
`Diff::add_delete`. -/

/-- The inserts after a write frontier `e`: every element sits at or after
`e`, carries nonempty data, and each element ends strictly before the next
begins. -/
def insChain (e : Nat) : List Insert → Prop
  | [] => True
  | i :: rest => e ≤ i.position ∧ i.data ≠ [] ∧ insChain (i.position + i.data.length + 1) rest

/-- End of the last insert of the list (`e` when the list is empty). -/
def insChainEnd (e : Nat) : List Insert → Nat
  | [] => e
  | i :: rest => insChainEnd (i.position + i.data.length) rest

/-- The deletes after a frontier `e`: positions at or after `e` and
strictly increasing. -/
def delChain (e : Nat) : List Delete → Prop
  | [] => True
  | x :: rest => e ≤ x.position ∧ delChain (x.position + 1) rest

/-- Position of the last delete (`e` when the list is empty). -/
def delLast (e : Nat) : List Delete → Nat
  | [] => e
  | x :: rest => delLast x.position rest

theorem addInsertList_ne_nil (l : List Insert) (q : Nat) (data : List Nat) :
    addInsertList l q data ≠ [] := by
  match l with
  | [] => simp [addInsertList]
  | [tail] =>
    rw [addInsertList]
    by_cases h : tail.position + tail.data.length = q
    · rw [if_pos h]
      simp
    · rw [if_neg h]
      simp
  | x :: y :: rest => simp [addInsertList]

theorem addDeleteList_ne_nil (l : List Delete) (q len : Nat) :
    addDeleteList l q len ≠ [] := by
  match l with
  | [] => simp [addDeleteList]
  | [tail] =>
    rw [addDeleteList]
    by_cases h : tail.position = q
    · rw [if_pos h]
      simp
    · rw [if_neg h]
      simp
  | x :: y :: rest => simp [addDeleteList]

theorem insChainEnd_seed (l : List Insert) (e f : Nat) (h : l ≠ []) :
    insChainEnd e l = insChainEnd f l := by
  cases l with
  | nil => exact absurd rfl h
  | cons x rest => rfl

theorem delLast_seed (l : List Delete) (e f : Nat) (h : l ≠ []) :
    delLast e l = delLast f l := by
  cases l with
  | nil => exact absurd rfl h
  | cons x rest => rfl

/-- `Diff::add_insert` preserves the insert chain and moves its end to the
end of the new data, provided the new insert starts at or after the end of
the last one. -/
theorem addInsertList_chain (l : List Insert) :
    ∀ (e q : Nat) (data : List Nat), insChain e l → insChainEnd e l ≤ q → data ≠ [] →
      insChain e (addInsertList l q data) ∧
      insChainEnd e (addInsertList l q data) = q + data.length := by
  induction l with
  | nil =>
    intro e q data _ hEnd hd
    refine ⟨⟨hEnd, hd, trivial⟩, rfl⟩
  | cons x xs ih =>
    intro e q data hc hEnd hd
    obtain ⟨hex, hxd, hrest⟩ := hc
    cases xs with
    | nil =>
      have hEnd' : x.position + x.data.length ≤ q := hEnd
      rw [addInsertList]
      by_cases hm : x.position + x.data.length = q
      · rw [if_pos hm]
        refine ⟨⟨hex, by simp [hd], trivial⟩, ?_⟩
        show x.position + (x.data ++ data).length = q + data.length
        rw [List.length_append]
        omega
      · rw [if_neg hm]
        refine ⟨⟨hex, hxd, ?_, hd, trivial⟩, rfl⟩
        show x.position + x.data.length + 1 ≤ q
        omega
    | cons y rest =>
      have hstep := ih (x.position + x.data.length + 1) q data hrest hEnd hd
      refine ⟨⟨hex, hxd, hstep.1⟩, ?_⟩
      show insChainEnd (x.position + x.data.length) (addInsertList (y :: rest) q data) =
        q + data.length
      rw [insChainEnd_seed _ _ (x.position + x.data.length + 1)
        (addInsertList_ne_nil _ _ _)]
      exact hstep.2

/-- `Diff::add_delete` preserves the delete chain and moves its last
position to the new one, provided positions are passed non-decreasingly. -/
theorem addDeleteList_chain (l : List Delete) :
    ∀ (e q len : Nat), delChain e l → delLast e l ≤ q →
      delChain e (addDeleteList l q len) ∧
      delLast e (addDeleteList l q len) = q := by
  induction l with
  | nil =>
    intro e q len _ hEnd
    exact ⟨⟨hEnd, trivial⟩, rfl⟩
  | cons x xs ih =>
    intro e q len hc hEnd
    obtain ⟨hex, hrest⟩ := hc
    cases xs with
    | nil =>
      have hEnd' : x.position ≤ q := hEnd
      rw [addDeleteList]
      by_cases hm : x.position = q
      · rw [if_pos hm]
        exact ⟨⟨hex, trivial⟩, hm⟩
      · rw [if_neg hm]
        refine ⟨⟨hex, ?_, trivial⟩, rfl⟩
        show x.position + 1 ≤ q
        omega
    | cons y rest =>
      have hstep := ih (x.position + 1) q len hrest hEnd
      refine ⟨⟨hex, hstep.1⟩, ?_⟩
      show delLast x.position (addDeleteList (y :: rest) q len) = q
      rw [delLast_seed _ _ (x.position + 1) (addDeleteList_ne_nil _ _ _)]
      exact hstep.2

/-- The recursive insert chain yields the spec's pairwise form: strictly
increasing positions and no adjacency between consecutive inserts. -/
theorem insChain_pairwise (l : List Insert) :
    ∀ e, insChain e l →
      List.Chain' (fun a b : Insert =>
        a.position < b.position ∧ a.position + a.data.length ≠ b.position) l := by
  induction l with
  | nil =>
    intro e _
    simp
  | cons x xs ih =>
    intro e hc
    obtain ⟨-, -, hrest⟩ := hc
    cases xs with
    | nil => simp
    | cons y rest =>
      rw [List.chain'_cons]
      have hy : x.position + x.data.length + 1 ≤ y.position := hrest.1
      exact ⟨⟨by omega, by omega⟩, ih _ hrest⟩

/-- The recursive delete chain yields the spec's pairwise form:
non-decreasing positions with no repeats between consecutive deletes. -/
theorem delChain_pairwise (l : List Delete) :
    ∀ e, delChain e l →
      List.Chain' (fun a b : Delete =>
        a.position ≤ b.position ∧ a.position ≠ b.position) l := by
  induction l with
  | nil =>
    intro e _
    simp
  | cons x xs ih =>
    intro e hc
    obtain ⟨-, hrest⟩ := hc
    cases xs with
    | nil => simp
    | cons y rest =>
      rw [List.chain'_cons]
      have hy : x.position + 1 ≤ y.position := hrest.1
      exact ⟨⟨by omega, by omega⟩, ih _ hrest⟩

/-- An explicit call to `Diff::add_insert` or `Diff::add_delete`, for the
claim about arbitrary call sequences. -/
inductive EditCall where
  | ins (position : Nat) (data : List Nat)
  | del (position : Nat) (len : Nat)
deriving DecidableEq, Repr

/-- Fold a call sequence over a script. -/
def applyCalls : Diff → List EditCall → Diff
  | acc, [] => acc
  | acc, EditCall.ins p data :: rest => applyCalls (acc.add_insert p data) rest
  | acc, EditCall.del p len :: rest => applyCalls (acc.add_delete p len) rest

/-- Well-spaced call sequences: each insert starts at or after the end of
the previous insert and carries data; delete positions are
non-decreasing. -/
def callsOk : Nat → Nat → List EditCall → Prop
  | _, _, [] => True
  | e, dl, EditCall.ins p data :: rest => e ≤ p ∧ data ≠ [] ∧ callsOk (p + data.length) dl rest
  | e, dl, EditCall.del p _ :: rest => dl ≤ p ∧ callsOk e p rest

theorem applyCalls_chain (calls : List EditCall) :
    ∀ (acc : Diff) (e dl : Nat),
      insChain 0 acc.inserts → insChainEnd 0 acc.inserts ≤ e →
      delChain 0 acc.deletes → delLast 0 acc.deletes ≤ dl →
      callsOk e dl calls →
      insChain 0 (applyCalls acc calls).inserts ∧
      delChain 0 (applyCalls acc calls).deletes := by
  induction calls with
  | nil =>
    intro acc e dl h1 _ h3 _ _
    exact ⟨h1, h3⟩
  | cons c rest ih =>
    intro acc e dl h1 h2 h3 h4 hok
    cases c with
    | ins p data =>
      obtain ⟨hep, hd, hrest⟩ := hok
      have hadd := addInsertList_chain acc.inserts 0 p data h1 (by omega) hd
      exact ih (acc.add_insert p data) (p + data.length) dl hadd.1
        (by show insChainEnd 0 (addInsertList acc.inserts p data) ≤ p + data.length
            rw [hadd.2])
        h3 h4 hrest
    | del p len =>
      obtain ⟨hdp, hrest⟩ := hok
      have hadd := addDeleteList_chain acc.deletes 0 p len h3 (by omega)
      exact ih (acc.add_delete p len) e p h1 h2 hadd.1
        (by show delLast 0 (addDeleteList acc.deletes p len) ≤ p
            rw [hadd.2]) hrest

/-! The loop invariant of `BlockHashes::diff_and_update` and its
preservation lemmas. -/

/-- Head decomposition of a window view. -/
theorem drop_take_cons (d : List Nat) (p B : Nat) (hp : p < d.length) (hB : 1 ≤ B) :
    (d.drop p).take B = d.getD p 0 :: (d.drop (p + 1)).take (B - 1) := by
  obtain ⟨C, rfl⟩ : ∃ C, B = C + 1 := ⟨B - 1, by omega⟩
  simp only [Nat.add_sub_cancel]
  rw [List.drop_eq_getElem_cons hp, List.take_succ_cons,
    List.getD_eq_getElem?_getD, List.getElem?_eq_getElem hp]
  rfl

/-- Appending the incoming head byte to the shifted window view. -/
theorem take_pred_append (d : List Nat) (p B : Nat) (hB : 1 ≤ B)
    (h : p + B < d.length) :
    (d.drop (p + 1)).take B = (d.drop (p + 1)).take (B - 1) ++ [d.getD (p + B) 0] := by
  obtain ⟨C, rfl⟩ : ∃ C, B = C + 1 := ⟨B - 1, by omega⟩
  simp only [Nat.add_sub_cancel]
  rw [List.take_succ, List.getElem?_drop]
  congr 1
  have hidx : p + 1 + C < d.length := by omega
  rw [List.getElem?_eq_getElem hidx, List.getD_eq_getElem?_getD,
    List.getElem?_eq_getElem (show p + (C + 1) < d.length from by omega)]
  simp only [Option.toList_some, Option.getD_some]
  congr 2
  omega

/-- When no head byte is left, the shifted view already has its final
length. -/
theorem take_pred_eq (d : List Nat) (p B : Nat) (h : d.length ≤ p + B) :
    (d.drop (p + 1)).take B = (d.drop (p + 1)).take (B - 1) := by
  rw [List.take_of_length_le (by rw [List.length_drop]; omega),
    List.take_of_length_le (by rw [List.length_drop]; omega)]

/-- Appending one block record to a canonical hash table. -/
theorem hashSeq_append (A : List (Nat × List Nat)) (a : Nat × List Nat) :
    hashSeq (A ++ [a]) = (hashSeq A).push a.1 (A.length, a.2) := by
  rw [hashSeq, hashSeq, hashSeqAux_append]
  rw [Nat.zero_add]

/-- A drained window (under the coherence invariant) always reports a
block boundary: `offset = front.length` and `back = []`. -/
theorem winv_fs_boundary (d : List Nat) (w : Window) (hW : WInv d w)
    (hfs : w.frame_size = 0) : w.on_boundry = true := by
  obtain ⟨h1, h2, hf, hb, hr, hdvd, hle⟩ := hW
  have hfs2 : w.front.length + w.back.length - w.offset = 0 := hfs
  rw [Window.on_boundry]
  have hofl : w.offset = w.front.length := by omega
  simp [hofl]

/-- The per-block `(weak, strong)` record of a chunk, as inserted by
`BlockHashes::new` and by the boundary bookkeeping of
`diff_and_update`. -/
def pairOf (c : List Nat) : Nat × List Nat := (RollingHash.hash_buffer c, md5 c)

/-- `BlockHashes.new` in terms of `pairOf`. -/
theorem blockHashes_new_eq (data : List Nat) (B : Nat) :
    BlockHashes.new data B =
      ⟨hashSeq ((chunks B data).map pairOf), B, ((chunks B data).map List.length).sum⟩ :=
  rfl

/-- The invariant of the main loop of `diff_and_update`, over the streamed
source `d`: the window is coherent, the weak hash describes the current
view, the rebuilt table holds exactly the blocks whose boundary has been
passed, and the pending script respects the ordering frontiers. -/
def DInv (self : BlockHashes) (d : List Nat) (s : DState) : Prop :=
  WInv d s.w ∧
  s.w.block_size = self.block_size ∧
  1 ≤ self.block_size ∧
  s.weak = hashStateOf (frameList s.w) ∧
  s.current_block_index = cbiOf self.block_size s.w.bytes_read ∧
  s.new_hashes = hashSeq (((chunks self.block_size d).take
    (cbiOf self.block_size s.w.bytes_read)).map pairOf) ∧
  insChain 0 s.diffs.inserts ∧
  insChainEnd 0 s.diffs.inserts + s.insert_buffer.length ≤ s.w.bytes_read ∧
  delChain 0 s.diffs.deletes ∧
  delLast 0 s.diffs.deletes ≤ s.w.bytes_read

/-- The invariant holds at loop entry. -/
theorem dinv_init (self : BlockHashes) (d : List Nat) (hB : 1 ≤ self.block_size) :
    DInv self d
      ⟨Window.new d self.block_size,
        RollingHash.new ((Window.new d self.block_size).frame).1, [], [], 0, Diff.new, -1⟩ := by
  refine ⟨winv_new d self.block_size, rfl, hB, ?_, ?_, ?_, trivial, ?_, trivial, ?_⟩
  · show RollingHash.new ((Window.new d self.block_size).frame).1 =
      hashStateOf (frameList (Window.new d self.block_size))
    rw [rollingHash_new_eq]
    congr 1
    show (Window.new d self.block_size).frame.1 =
      (Window.new d self.block_size).frame.1 ++ (Window.new d self.block_size).frame.2
    have h2 : (Window.new d self.block_size).frame.2 = [] := by
      show ((d.drop self.block_size).take self.block_size).take 0 = []
      rw [List.take_zero]
    rw [h2, List.append_nil]
  · show (0 : Nat) = cbiOf self.block_size (Window.new d self.block_size).bytes_read
    rw [show (Window.new d self.block_size).bytes_read = 0 from rfl, cbiOf_zero _ hB]
  · show ([] : Hashes) = hashSeq (((chunks self.block_size d).take
      (cbiOf self.block_size (Window.new d self.block_size).bytes_read)).map pairOf)
    rw [show (Window.new d self.block_size).bytes_read = 0 from rfl, cbiOf_zero _ hB]
    rfl
  · show insChainEnd 0 Diff.new.inserts + ([] : List Nat).length ≤ 0
    rfl
  · show delLast 0 Diff.new.deletes ≤ 0
    rfl

/-- Bytes still to stream when the frame is nonempty. -/
theorem dinv_pos (self : BlockHashes) (d : List Nat) (s : DState)
    (hI : DInv self d s) (hfs : s.w.frame_size ≠ 0) :
    s.w.bytes_read < d.length := by
  obtain ⟨hW, hBs, hB, -, -, -, -, -, -, -⟩ := hI
  have h1 := (winv_fs_zero_iff d s.w hW).mpr
  have h2 : ¬ (d.length ≤ s.w.bytes_read ∨ s.w.block_size = 0) := fun hh => hfs (h1 hh)
  omega

/-- `recordBoundary` advances the recorded-block bookkeeping from the
`bytes_read` frontier to `bytes_read + 1` and touches nothing else. -/
theorem recordBoundary_spec (self : BlockHashes) (d : List Nat) (s : DState)
    (hI : DInv self d s) (hfs : s.w.frame_size ≠ 0) :
    recordBoundary s =
      { s with
        new_hashes := hashSeq (((chunks self.block_size d).take
          (cbiOf self.block_size (s.w.bytes_read + 1))).map pairOf)
        current_block_index := cbiOf self.block_size (s.w.bytes_read + 1) } := by
  have hpL : s.w.bytes_read < d.length := dinv_pos self d s hI hfs
  obtain ⟨hW, hBs, hB, hweak, hcbi, htab, -, -, -, -⟩ := hI
  have hbd := winv_boundary d s.w hW hfs
  rw [recordBoundary]
  by_cases hob : s.w.on_boundry
  · rw [if_pos hob]
    have hdvd : self.block_size ∣ s.w.bytes_read := by
      rw [← hBs]
      exact hbd.mp hob
    have hk : s.w.bytes_read / self.block_size * self.block_size = s.w.bytes_read :=
      Nat.div_mul_cancel hdvd
    have hchunk : (chunks self.block_size d)[s.w.bytes_read / self.block_size]? =
        some ((d.drop s.w.bytes_read).take self.block_size) := by
      rw [chunks_getElem self.block_size hB d _ (by omega)]
      rw [hk]
    have hlen : s.w.bytes_read / self.block_size < (chunks self.block_size d).length := by
      have := List.getElem?_eq_some_iff.mp hchunk
      obtain ⟨hlt, -⟩ := this
      exact hlt
    have htake : (chunks self.block_size d).take (s.w.bytes_read / self.block_size + 1) =
        (chunks self.block_size d).take (s.w.bytes_read / self.block_size) ++
          [(d.drop s.w.bytes_read).take self.block_size] := by
      rw [List.take_succ, hchunk]
      rfl
    have hfl : frameList s.w = (d.drop s.w.bytes_read).take self.block_size := by
      rw [winv_frameList d s.w hW, hBs]
    have hcbi1 : cbiOf self.block_size (s.w.bytes_read + 1) =
        s.w.bytes_read / self.block_size + 1 := cbiOf_boundary_succ _ _ hB hdvd
    have hcbi0 : cbiOf self.block_size s.w.bytes_read =
        s.w.bytes_read / self.block_size := cbiOf_dvd _ _ hB hdvd
    have hmaplen : (((chunks self.block_size d).take
        (s.w.bytes_read / self.block_size)).map pairOf).length =
        s.w.bytes_read / self.block_size := by
      rw [List.length_map, List.length_take]
      omega
    congr 1
    · rw [htab, hcbi1, hcbi0, htake, List.map_append]
      rw [show (List.map pairOf [(d.drop s.w.bytes_read).take self.block_size]) =
        [pairOf ((d.drop s.w.bytes_read).take self.block_size)] from rfl]
      rw [hashSeq_append, hmaplen]
      rw [hweak, hfl]
      rw [show (pairOf ((d.drop s.w.bytes_read).take self.block_size)).1 =
        RollingHash.hash_buffer ((d.drop s.w.bytes_read).take self.block_size) from rfl]
      rw [hash_buffer_eq, hcbi, hcbi0]
      rfl
    · rw [hcbi, hcbi0, hcbi1]
  · rw [if_neg hob]
    have hnd : ¬ self.block_size ∣ s.w.bytes_read := by
      intro hdvd
      exact hob (hbd.mpr (by rw [hBs]; exact hdvd))
    have hcbi1 : cbiOf self.block_size (s.w.bytes_read + 1) =
        cbiOf self.block_size s.w.bytes_read := cbiOf_interior_succ _ _ hB hnd
    rw [hcbi1, ← htab, ← hcbi]

/-- `advanceRoll` streams one byte: the window advances, and the weak hash
is rolled to describe the new view. -/
theorem advanceRoll_spec (d : List Nat) (s : DState) (hW : WInv d s.w)
    (hweak : s.weak = hashStateOf (frameList s.w)) (hB : 1 ≤ s.w.block_size)
    (hpL : s.w.bytes_read < d.length) (hfs : s.w.frame_size ≠ 0) :
    ∃ w2, advanceRoll s =
      ((some (d.getD s.w.bytes_read 0),
        if s.w.bytes_read + s.w.block_size < d.length
        then some (d.getD (s.w.bytes_read + s.w.block_size) 0) else none),
        { s with w := w2, weak := hashStateOf (frameList w2) }) ∧
      WInv d w2 ∧ w2.bytes_read = s.w.bytes_read + 1 ∧ w2.block_size = s.w.block_size := by
  obtain ⟨w2, hadv, hW2, hp2, hB2⟩ := advance_spec d s.w hW hfs
  have hfl : frameList s.w = d.getD s.w.bytes_read 0 ::
      (d.drop (s.w.bytes_read + 1)).take (s.w.block_size - 1) := by
    rw [winv_frameList d s.w hW, drop_take_cons d _ _ hpL hB]
  have hfl2 : frameList w2 = (d.drop (s.w.bytes_read + 1)).take s.w.block_size := by
    rw [winv_frameList d w2 hW2, hp2, hB2]
  have hroll : s.weak.roll_hash
      (if s.w.bytes_read + s.w.block_size < d.length
       then some (d.getD (s.w.bytes_read + s.w.block_size) 0) else none)
      (d.getD s.w.bytes_read 0) = hashStateOf (frameList w2) := by
    rw [hweak, hfl, hfl2]
    by_cases hc : s.w.bytes_read + s.w.block_size < d.length
    · rw [if_pos hc, roll_state_some,
        take_pred_append d s.w.bytes_read s.w.block_size hB hc]
    · rw [if_neg hc, roll_state_none,
        take_pred_eq d s.w.bytes_read s.w.block_size (by omega)]
  refine ⟨w2, ?_, hW2, hp2, hB2⟩
  rw [advanceRoll]
  simp only [hadv]
  rw [hroll]

/-- One record-and-advance step of the loop: the tail byte comes out, the
invariant moves to the next position, and the script state is untouched
(the buffer bound is even kept at the old position, for the miss branch
which grows the buffer by the streamed byte). -/
theorem step_spec (self : BlockHashes) (d : List Nat) (s : DState)
    (hI : DInv self d s) (hfs : s.w.frame_size ≠ 0) :
    ∃ s2, advanceRoll (recordBoundary s) =
      ((some (d.getD s.w.bytes_read 0),
        if s.w.bytes_read + s.w.block_size < d.length
        then some (d.getD (s.w.bytes_read + s.w.block_size) 0) else none), s2) ∧
      DInv self d s2 ∧ s2.w.bytes_read = s.w.bytes_read + 1 ∧
      s2.diffs = s.diffs ∧ s2.insert_buffer = s.insert_buffer ∧ s2.last = s.last ∧
      insChainEnd 0 s2.diffs.inserts + s2.insert_buffer.length ≤ s.w.bytes_read := by
  have hpL : s.w.bytes_read < d.length := dinv_pos self d s hI hfs
  have hrec := recordBoundary_spec self d s hI hfs
  obtain ⟨hW, hBs, hB, hweak, hcbi, htab, hins, hinsE, hdel, hdelL⟩ := hI
  obtain ⟨w2, hadvr, hW2, hp2, hB2⟩ := advanceRoll_spec d
    { s with
      new_hashes := hashSeq (((chunks self.block_size d).take
        (cbiOf self.block_size (s.w.bytes_read + 1))).map pairOf)
      current_block_index := cbiOf self.block_size (s.w.bytes_read + 1) }
    hW hweak (by show 1 ≤ s.w.block_size; omega) hpL hfs
  have hp2' : w2.bytes_read = s.w.bytes_read + 1 := hp2
  have hB2' : w2.block_size = s.w.block_size := hB2
  refine ⟨⟨w2, hashStateOf (frameList w2), s.insert_buffer,
    hashSeq (((chunks self.block_size d).take
      (cbiOf self.block_size (s.w.bytes_read + 1))).map pairOf),
    cbiOf self.block_size (s.w.bytes_read + 1), s.diffs, s.last⟩, ?_, ?_, ?_, rfl, rfl, rfl, ?_⟩
  · rw [hrec]
    exact hadvr
  · refine ⟨hW2, ?_, hB, rfl, ?_, ?_, hins, ?_, hdel, ?_⟩
    · show w2.block_size = self.block_size
      rw [hB2']
      exact hBs
    · show cbiOf self.block_size (s.w.bytes_read + 1) = cbiOf self.block_size w2.bytes_read
      rw [hp2']
    · show hashSeq (((chunks self.block_size d).take
        (cbiOf self.block_size (s.w.bytes_read + 1))).map pairOf) =
        hashSeq (((chunks self.block_size d).take
        (cbiOf self.block_size w2.bytes_read)).map pairOf)
      rw [hp2']
    · show insChainEnd 0 s.diffs.inserts + s.insert_buffer.length ≤ w2.bytes_read
      rw [hp2']
      omega
    · show delLast 0 s.diffs.deletes ≤ w2.bytes_read
      rw [hp2']
      omega
  · show w2.bytes_read = s.w.bytes_read + 1
    exact hp2'
  · show insChainEnd 0 s.diffs.inserts + s.insert_buffer.length ≤ s.w.bytes_read
    exact hinsE

/-- The inner for-loop of the match branch preserves the invariant,
leaves the script state alone, never moves backwards, and makes strict
progress when it starts inside the data. -/
theorem matchAdvance_spec (self : BlockHashes) (d : List Nat) :
    ∀ (i : Nat) (s : DState), DInv self d s →
      DInv self d (matchAdvance i s) ∧
      (matchAdvance i s).diffs = s.diffs ∧
      (matchAdvance i s).insert_buffer = s.insert_buffer ∧
      (matchAdvance i s).last = s.last ∧
      s.w.bytes_read ≤ (matchAdvance i s).w.bytes_read ∧
      (1 ≤ i → s.w.frame_size ≠ 0 →
        s.w.bytes_read + 1 ≤ (matchAdvance i s).w.bytes_read) := by
  intro i
  induction i with
  | zero =>
    intro s hI
    exact ⟨hI, rfl, rfl, rfl, Nat.le_refl _, fun h1 _ => absurd h1 (by omega)⟩
  | succ i ih =>
    intro s hI
    by_cases hg : (s.w.on_boundry && s.w.frame_size == 0) = true
    · have heq : matchAdvance (i + 1) s = s := by
        simp only [matchAdvance]
        rw [if_pos hg]
      rw [heq]
      have hfs0 : s.w.frame_size = 0 := by
        have := (Bool.and_eq_true _ _).mp hg
        exact beq_iff_eq.mp this.2
      exact ⟨hI, rfl, rfl, rfl, Nat.le_refl _, fun _ hfs => absurd hfs0 hfs⟩
    · have hfs : s.w.frame_size ≠ 0 := by
        intro h0
        apply hg
        rw [winv_fs_boundary d s.w hI.1 h0, h0]
        rfl
      obtain ⟨s2, hstep, hI2, hp2, hd2, hb2, hl2, -⟩ := step_spec self d s hI hfs
      have heq : matchAdvance (i + 1) s = matchAdvance i s2 := by
        simp only [matchAdvance]
        rw [if_neg hg, hstep]
      obtain ⟨k1, k2, k3, k4, k5, -⟩ := ih s2 hI2
      rw [heq]
      refine ⟨k1, k2.trans hd2, k3.trans hb2, k4.trans hl2, by omega, fun _ _ => by omega⟩

/-- Entering the inner loop of the match branch from a nonempty frame and
recursing: packaged for the four script-update cases of the branch. -/
theorem diffLoop_matchTail (self : BlockHashes) (d : List Nat) (fuel : Nat)
    (ih : ∀ s, DInv self d s → d.length - s.w.bytes_read < fuel →
      ∃ sF, diffLoop self fuel s = some sF ∧ DInv self d sF ∧
        sF.w.frame_size = 0 ∧ sF.w.bytes_read = d.length)
    (s t : DState) (hI : DInv self d t) (htw : t.w = s.w)
    (hfs : s.w.frame_size ≠ 0) (hpL : s.w.bytes_read < d.length)
    (hmu : d.length - s.w.bytes_read < fuel + 1) :
    ∃ sF, diffLoop self fuel (matchAdvance self.block_size t) = some sF ∧
      DInv self d sF ∧ sF.w.frame_size = 0 ∧ sF.w.bytes_read = d.length := by
  have hB : 1 ≤ self.block_size := hI.2.2.1
  have hMA := matchAdvance_spec self d self.block_size t hI
  have hstrict := hMA.2.2.2.2.2 hB (by rw [htw]; exact hfs)
  have htp : t.w.bytes_read = s.w.bytes_read := by rw [htw]
  exact ih _ hMA.1 (by omega)

/-- The state written by the script bookkeeping of the loop: only the
script fields change, so the invariant only needs the new frontiers. -/
theorem dinv_set_script (self : BlockHashes) (d : List Nat) (s : DState)
    (hI : DInv self d s) {D : Diff} {buf : List Nat} {lst : Int}
    (h1 : insChain 0 D.inserts)
    (h2 : insChainEnd 0 D.inserts + buf.length ≤ s.w.bytes_read)
    (h3 : delChain 0 D.deletes)
    (h4 : delLast 0 D.deletes ≤ s.w.bytes_read) :
    DInv self d ⟨s.w, s.weak, buf, s.new_hashes, s.current_block_index, D, lst⟩ := by
  obtain ⟨a1, a2, a3, a4, a5, a6, -, -, -, -⟩ := hI
  exact ⟨a1, a2, a3, a4, a5, a6, h1, h2, h3, h4⟩

/-- The main loop of `diff_and_update` terminates within the fuel, ends
with a drained window at the end of the stream, and preserves the
invariant. -/
theorem diffLoop_spec (self : BlockHashes) (d : List Nat) :
    ∀ (fuel : Nat) (s : DState), DInv self d s → d.length - s.w.bytes_read < fuel →
      ∃ sF, diffLoop self fuel s = some sF ∧ DInv self d sF ∧
        sF.w.frame_size = 0 ∧ sF.w.bytes_read = d.length := by
  intro fuel
  induction fuel with
  | zero =>
    intro s hI hmu
    exact absurd hmu (by omega)
  | succ fuel ih =>
    intro s hI hmu
    by_cases hfs : s.w.frame_size = 0
    · refine ⟨s, ?_, hI, hfs, ?_⟩
      · simp only [diffLoop]
        rw [if_pos hfs]
      · have h1 := (winv_fs_zero_iff d s.w hI.1).mp hfs
        have h2 := winv_p_le d s.w hI.1
        have hBs := hI.2.1
        have hB := hI.2.2.1
        omega
    · have hpL : s.w.bytes_read < d.length := dinv_pos self d s hI hfs
      obtain ⟨hW, hBs, hB, hweak, hcbi, htab, hins, hinsE, hdel, hdelL⟩ := hI
      have hI2 : DInv self d s :=
        ⟨hW, hBs, hB, hweak, hcbi, htab, hins, hinsE, hdel, hdelL⟩
      simp only [diffLoop]
      rw [if_neg hfs]
      split
      · rename_i a j hm
        by_cases hbuf : s.insert_buffer.length > 0
        · have hbne : s.insert_buffer ≠ [] := List.length_pos.mp hbuf
          have hflush := addInsertList_chain s.diffs.inserts 0
            (s.w.bytes_read - s.insert_buffer.length) s.insert_buffer hins
            (by omega) hbne
          rw [if_pos hbuf]
          by_cases hgap : (j : Int) >
              ({ s with
                diffs := s.diffs.add_insert
                  (s.w.get_bytes_read - s.insert_buffer.length) s.insert_buffer
                insert_buffer := ([] : List Nat) } : DState).last + 1
          · rw [if_pos hgap]
            have hdelnew := addDeleteList_chain s.diffs.deletes 0 s.w.bytes_read
              (self.block_size * ((j : Int) - s.last - 1).toNat) hdel (by omega)
            refine diffLoop_matchTail self d fuel ih s _
              (dinv_set_script self d s hI2 ?_ ?_ ?_ ?_) rfl hfs hpL hmu
            · show insChain 0 (addInsertList s.diffs.inserts
                (s.w.bytes_read - s.insert_buffer.length) s.insert_buffer)
              exact hflush.1
            · show insChainEnd 0 (addInsertList s.diffs.inserts
                (s.w.bytes_read - s.insert_buffer.length) s.insert_buffer) +
                ([] : List Nat).length ≤ s.w.bytes_read
              rw [hflush.2, List.length_nil]
              omega
            · show delChain 0 (addDeleteList s.diffs.deletes s.w.bytes_read
                (self.block_size * ((j : Int) - s.last - 1).toNat))
              exact hdelnew.1
            · show delLast 0 (addDeleteList s.diffs.deletes s.w.bytes_read
                (self.block_size * ((j : Int) - s.last - 1).toNat)) ≤ s.w.bytes_read
              rw [hdelnew.2]
          · rw [if_neg hgap]
            refine diffLoop_matchTail self d fuel ih s _
              (dinv_set_script self d s hI2 ?_ ?_ ?_ ?_) rfl hfs hpL hmu
            · show insChain 0 (addInsertList s.diffs.inserts
                (s.w.bytes_read - s.insert_buffer.length) s.insert_buffer)
              exact hflush.1
            · show insChainEnd 0 (addInsertList s.diffs.inserts
                (s.w.bytes_read - s.insert_buffer.length) s.insert_buffer) +
                ([] : List Nat).length ≤ s.w.bytes_read
              rw [hflush.2, List.length_nil]
              omega
            · exact hdel
            · exact hdelL
        · rw [if_neg hbuf]
          by_cases hgap : (j : Int) > s.last + 1
          · rw [if_pos hgap]
            have hdelnew := addDeleteList_chain s.diffs.deletes 0 s.w.bytes_read
              (self.block_size * ((j : Int) - s.last - 1).toNat) hdel (by omega)
            refine diffLoop_matchTail self d fuel ih s _
              (dinv_set_script self d s hI2 hins ?_ ?_ ?_) rfl hfs hpL hmu
            · show insChainEnd 0 s.diffs.inserts + s.insert_buffer.length ≤ s.w.bytes_read
              omega
            · show delChain 0 (addDeleteList s.diffs.deletes s.w.bytes_read
                (self.block_size * ((j : Int) - s.last - 1).toNat))
              exact hdelnew.1
            · show delLast 0 (addDeleteList s.diffs.deletes s.w.bytes_read
                (self.block_size * ((j : Int) - s.last - 1).toNat)) ≤ s.w.bytes_read
              rw [hdelnew.2]
          · rw [if_neg hgap]
            refine diffLoop_matchTail self d fuel ih s _
              (dinv_set_script self d s hI2 hins ?_ hdel hdelL) rfl hfs hpL hmu
            show insChainEnd 0 s.diffs.inserts + s.insert_buffer.length ≤ s.w.bytes_read
            omega
      · rename_i a hm
        obtain ⟨s2, hstep, hJ2, hp2, hd2, hb2, hl2, hend⟩ := step_spec self d s hI2 hfs
        have hJ2' : DInv self d
            { s2 with insert_buffer := s2.insert_buffer ++ [d.getD s.w.bytes_read 0] } := by
          obtain ⟨a1, a2, a3, a4, a5, a6, a7, -, a9, a10⟩ := hJ2
          refine ⟨a1, a2, a3, a4, a5, a6, a7, ?_, a9, a10⟩
          show insChainEnd 0 s2.diffs.inserts +
            (s2.insert_buffer ++ [d.getD s.w.bytes_read 0]).length ≤ s2.w.bytes_read
          rw [List.length_append, hp2]
          have hb2l : s2.insert_buffer.length = s.insert_buffer.length := by rw [hb2]
          have hd2l : insChainEnd 0 s2.diffs.inserts = insChainEnd 0 s.diffs.inserts := by
            rw [hd2]
          simp only [List.length_singleton]
          omega
        obtain ⟨sF, hloop, hIF, hfsF, hpF⟩ := ih _ hJ2' (by
          show d.length -
            ({ s2 with insert_buffer := s2.insert_buffer ++ [d.getD s.w.bytes_read 0] }
              : DState).w.bytes_read < fuel
          show d.length - s2.w.bytes_read < fuel
          omega)
        refine ⟨sF, ?_, hIF, hfsF, hpF⟩
        rw [hstep]
        exact hloop

/-- Full behaviour of `diff_and_update` for a positive block size: it
succeeds, the updated digest equals `BlockHashes::new` of the new data,
and the emitted script satisfies the ordering invariants. -/
theorem diff_and_update_master (self : BlockHashes) (d : List Nat)
    (hB : 1 ≤ self.block_size) :
    ∃ E, self.diff_and_update d = some (E, BlockHashes.new d self.block_size) ∧
      List.Chain' (fun a b : Insert => a.position < b.position ∧
        a.position + a.data.length ≠ b.position) E.inserts ∧
      List.Chain' (fun a b : Delete => a.position ≤ b.position ∧
        a.position ≠ b.position) E.deletes := by
  have hI0 := dinv_init self d hB
  have hmu0 : (Window.new d self.block_size).frame_size +
      (Window.new d self.block_size).reader.length = d.length := by
    have h := winv_mu d (Window.new d self.block_size) (winv_new d self.block_size)
    rw [show (Window.new d self.block_size).bytes_read = 0 from rfl] at h
    omega
  obtain ⟨sF, hloop, hIF, hfsF, hpF⟩ := diffLoop_spec self d
    ((Window.new d self.block_size).frame_size +
      (Window.new d self.block_size).reader.length + 1)
    ⟨Window.new d self.block_size,
      RollingHash.new ((Window.new d self.block_size).frame).1, [], [], 0, Diff.new, -1⟩
    hI0
    (by
      show d.length - (Window.new d self.block_size).bytes_read <
        (Window.new d self.block_size).frame_size +
          (Window.new d self.block_size).reader.length + 1
      rw [show (Window.new d self.block_size).bytes_read = 0 from rfl]
      omega)
  have hhashes : sF.new_hashes = (BlockHashes.new d self.block_size).hashes := by
    have htabF := hIF.2.2.2.2.2.1
    have hcl : (chunks self.block_size d).length = cbiOf self.block_size d.length :=
      chunks_length self.block_size hB d
    rw [htabF, hpF, ← hcl, List.take_length]
    rfl
  have hfsz : sF.w.get_bytes_read = (BlockHashes.new d self.block_size).file_size := by
    show sF.w.bytes_read = (BlockHashes.new d self.block_size).file_size
    rw [hpF]
    show d.length = ((chunks self.block_size d).map List.length).sum
    rw [chunks_length_sum self.block_size hB d]
  have hsecond : (⟨sF.new_hashes, self.block_size, sF.w.get_bytes_read⟩ : BlockHashes) =
      BlockHashes.new d self.block_size := by
    rw [hhashes, hfsz]
    rfl
  obtain ⟨-, -, -, -, -, -, hinsF, hinsEF, hdelF, hdelLF⟩ := hIF
  simp only [BlockHashes.diff_and_update]
  split
  · rename_i heq
    rw [hloop] at heq
    exact absurd heq (by simp)
  · rename_i sG heq
    rw [hloop] at heq
    obtain rfl : sF = sG := Option.some.inj heq
    rw [if_neg (show ¬ self.block_size = 0 from by omega)]
    by_cases hbufF : sF.insert_buffer.length > 0
    · have hbne : sF.insert_buffer ≠ [] := List.length_pos.mp hbufF
      have hflush := addInsertList_chain sF.diffs.inserts 0
        (sF.w.bytes_read - sF.insert_buffer.length) sF.insert_buffer hinsF
        (by omega) hbne
      rw [if_pos hbufF]
      by_cases hgapF : sF.last + 1 <
          (((self.file_size + self.block_size - 1) / self.block_size : Nat) : Int)
      · rw [if_pos hgapF]
        have hdelnew := addDeleteList_chain sF.diffs.deletes 0 sF.w.bytes_read
          (((self.file_size : Int) - (sF.last + 1) * (self.block_size : Int)).toNat)
          hdelF (by omega)
        refine ⟨(sF.diffs.add_insert (sF.w.get_bytes_read - sF.insert_buffer.length)
            sF.insert_buffer).add_delete sF.w.get_bytes_read
            (((self.file_size : Int) - (sF.last + 1) * (self.block_size : Int)).toNat),
          ?_, ?_, ?_⟩
        · rw [hsecond]
        · show List.Chain' (fun a b : Insert => a.position < b.position ∧
            a.position + a.data.length ≠ b.position)
            (addInsertList sF.diffs.inserts
              (sF.w.bytes_read - sF.insert_buffer.length) sF.insert_buffer)
          exact insChain_pairwise _ 0 hflush.1
        · show List.Chain' (fun a b : Delete => a.position ≤ b.position ∧
            a.position ≠ b.position)
            (addDeleteList sF.diffs.deletes sF.w.bytes_read
              (((self.file_size : Int) - (sF.last + 1) * (self.block_size : Int)).toNat))
          exact delChain_pairwise _ 0 hdelnew.1
      · rw [if_neg hgapF]
        refine ⟨sF.diffs.add_insert (sF.w.get_bytes_read - sF.insert_buffer.length)
            sF.insert_buffer, ?_, ?_, ?_⟩
        · rw [hsecond]
        · show List.Chain' (fun a b : Insert => a.position < b.position ∧
            a.position + a.data.length ≠ b.position)
            (addInsertList sF.diffs.inserts
              (sF.w.bytes_read - sF.insert_buffer.length) sF.insert_buffer)
          exact insChain_pairwise _ 0 hflush.1
        · exact delChain_pairwise _ 0 hdelF
    · rw [if_neg hbufF]
      by_cases hgapF : sF.last + 1 <
          (((self.file_size + self.block_size - 1) / self.block_size : Nat) : Int)
      · rw [if_pos hgapF]
        have hdelnew := addDeleteList_chain sF.diffs.deletes 0 sF.w.bytes_read
          (((self.file_size : Int) - (sF.last + 1) * (self.block_size : Int)).toNat)
          hdelF (by omega)
        refine ⟨sF.diffs.add_delete sF.w.get_bytes_read
            (((self.file_size : Int) - (sF.last + 1) * (self.block_size : Int)).toNat),
          ?_, ?_, ?_⟩
        · rw [hsecond]
        · exact insChain_pairwise _ 0 hinsF
        · show List.Chain' (fun a b : Delete => a.position ≤ b.position ∧
            a.position ≠ b.position)
            (addDeleteList sF.diffs.deletes sF.w.bytes_read
              (((self.file_size : Int) - (sF.last + 1) * (self.block_size : Int)).toNat))
          exact delChain_pairwise _ 0 hdelnew.1
      · rw [if_neg hgapF]
        refine ⟨sF.diffs, ?_, ?_, ?_⟩
        · rw [hsecond]
        · exact insChain_pairwise _ 0 hinsF
        · exact delChain_pairwise _ 0 hdelF

/-- `diff_and_update` with a zero block size never returns a value (the
`old_block_count` division panics). -/
theorem diff_and_update_zero (self : BlockHashes) (d : List Nat)
    (hB0 : self.block_size = 0) : self.diff_and_update d = none := by
  simp only [BlockHashes.diff_and_update]
  split
  · rfl
  · rw [if_pos hB0]

/-- C2: for every old digest state with a positive block size and every
new byte sequence, `diff_and_update` succeeds and the updated differ
state (hash table, block size, file size) equals the digest
`BlockHashes::new` would build from the new data from scratch; in this
model the hash table is kept in canonical block-insertion order on both
sides, so the mapping contents coincide as maps. -/
theorem c2_digest_rebuild (self : BlockHashes) (d : List Nat)
    (hB : 1 ≤ self.block_size) :
    ∃ E, self.diff_and_update d = some (E, BlockHashes.new d self.block_size) := by
  obtain ⟨E, h, -, -⟩ := diff_and_update_master self d hB
  exact ⟨E, h⟩

/-- Witness for C2 at a concrete digest and source. -/
theorem c2_digest_rebuild_witness :
    1 ≤ (BlockHashes.new [97, 98, 99] 2).block_size ∧
    ∃ E, (BlockHashes.new [97, 98, 99] 2).diff_and_update [97, 98, 100] =
      some (E, BlockHashes.new [97, 98, 100] (BlockHashes.new [97, 98, 99] 2).block_size) :=
  ⟨by decide, c2_digest_rebuild (BlockHashes.new [97, 98, 99] 2) [97, 98, 100] (by decide)⟩

/-- C9 (amended): every script produced by `diff_and_update` has strictly
increasing, non-adjacent inserts and non-decreasing deletes with no
repeated consecutive positions; and the same holds for any sequence of
`add_insert`/`add_delete` calls in which every insert starts at or after
the end of the previous insert with nonempty data and delete positions
are non-decreasing.  (Merely non-decreasing insert positions are not
enough; see the counterexample.) -/
theorem c9_script_invariants :
    (∀ (self : BlockHashes) (d : List Nat) (E : Diff) (hs : BlockHashes),
        self.diff_and_update d = some (E, hs) →
        List.Chain' (fun a b : Insert => a.position < b.position ∧
          a.position + a.data.length ≠ b.position) E.inserts ∧
        List.Chain' (fun a b : Delete => a.position ≤ b.position ∧
          a.position ≠ b.position) E.deletes) ∧
    (∀ (calls : List EditCall), callsOk 0 0 calls →
        List.Chain' (fun a b : Insert => a.position < b.position ∧
          a.position + a.data.length ≠ b.position) (applyCalls Diff.new calls).inserts ∧
        List.Chain' (fun a b : Delete => a.position ≤ b.position ∧
          a.position ≠ b.position) (applyCalls Diff.new calls).deletes) := by
  constructor
  · intro self d E hs h
    by_cases hB : 1 ≤ self.block_size
    · obtain ⟨E', hEq, hc1, hc2⟩ := diff_and_update_master self d hB
      rw [h] at hEq
      have hpair := Option.some.inj hEq
      have hE : E = E' := congrArg Prod.fst hpair
      rw [hE]
      exact ⟨hc1, hc2⟩
    · have hnone := diff_and_update_zero self d (by omega)
      rw [hnone] at h
      exact absurd h (by simp)
  · intro calls hok
    have hfold := applyCalls_chain calls Diff.new 0 0 trivial (Nat.le_refl 0)
      trivial (Nat.le_refl 0) hok
    exact ⟨insChain_pairwise _ 0 hfold.1, delChain_pairwise _ 0 hfold.2⟩

/-- Witness for C9: a concrete diff run and a concrete well-spaced call
sequence. -/
theorem c9_script_invariants_witness :
    ((BlockHashes.new [97, 98, 99] 1).diff_and_update [98, 122] =
      some (⟨[⟨1, [122]⟩], [⟨0, 1⟩, ⟨2, 1⟩]⟩, BlockHashes.new [98, 122] 1)) ∧
    (List.Chain' (fun a b : Insert => a.position < b.position ∧
        a.position + a.data.length ≠ b.position)
        (⟨[⟨1, [122]⟩], [⟨0, 1⟩, ⟨2, 1⟩]⟩ : Diff).inserts ∧
      List.Chain' (fun a b : Delete => a.position ≤ b.position ∧
        a.position ≠ b.position) (⟨[⟨1, [122]⟩], [⟨0, 1⟩, ⟨2, 1⟩]⟩ : Diff).deletes) ∧
    callsOk 0 0 [EditCall.ins 0 [97], EditCall.del 0 2, EditCall.ins 3 [98]] ∧
    (List.Chain' (fun a b : Insert => a.position < b.position ∧
        a.position + a.data.length ≠ b.position)
        (applyCalls Diff.new
          [EditCall.ins 0 [97], EditCall.del 0 2, EditCall.ins 3 [98]]).inserts ∧
      List.Chain' (fun a b : Delete => a.position ≤ b.position ∧
        a.position ≠ b.position)
        (applyCalls Diff.new
          [EditCall.ins 0 [97], EditCall.del 0 2, EditCall.ins 3 [98]]).deletes) :=
  ⟨by decide,
    c9_script_invariants.1 (BlockHashes.new [97, 98, 99] 1) [98, 122]
      ⟨[⟨1, [122]⟩], [⟨0, 1⟩, ⟨2, 1⟩]⟩ (BlockHashes.new [98, 122] 1) (by decide),
    by simp [callsOk],
    c9_script_invariants.2 [EditCall.ins 0 [97], EditCall.del 0 2, EditCall.ins 3 [98]]
      (by simp [callsOk])⟩

/-- Counterexample for C9 as stated: two `add_insert` calls at the same
(hence non-decreasing) position are not merged and leave the inserts list
with a repeated position, so the inserts are not strictly increasing. -/
theorem c9_nondecreasing_insert_counterexample :
    ((Diff.new.add_insert 0 [97]).add_insert 0 [98]).inserts =
      [⟨0, [97]⟩, ⟨0, [98]⟩] ∧
    ¬ List.Chain' (fun a b : Insert => a.position < b.position)
      ((Diff.new.add_insert 0 [97]).add_insert 0 [98]).inserts := by
  refine ⟨rfl, ?_⟩
  intro h
  rw [show ((Diff.new.add_insert 0 [97]).add_insert 0 [98]).inserts =
    [⟨0, [97]⟩, ⟨0, [98]⟩] from rfl] at h
  exact absurd (List.chain'_cons.mp h).1 (by decide)

/-- C10: when both window buffers are drained, `advance` reports
`(None, None)` and leaves the window untouched (so every later call does
the same and the frame stays empty); consequently `diff_and_update`
terminates with a value on every finite source, for every digest with a
positive block size. -/
theorem c10_termination :
    (∀ w : Window, w.offset ≤ w.front.length → w.frame_size = 0 →
        w.advance = ((none, none), w)) ∧
    (∀ (self : BlockHashes) (d : List Nat), 1 ≤ self.block_size →
        ∃ r, self.diff_and_update d = some r) := by
  constructor
  · exact fun w h2 hfs => advance_stuck w h2 hfs
  · intro self d hB
    obtain ⟨E, h, -, -⟩ := diff_and_update_master self d hB
    exact ⟨(E, BlockHashes.new d self.block_size), h⟩

/-- Witness for C10: a concrete drained window and a concrete diff run. -/
theorem c10_termination_witness :
    (Window.mk [] [] 1 0 2 []).offset ≤ (Window.mk [] [] 1 0 2 []).front.length ∧
    (Window.mk [] [] 1 0 2 []).frame_size = 0 ∧
    (Window.mk [] [] 1 0 2 []).advance = ((none, none), Window.mk [] [] 1 0 2 []) ∧
    1 ≤ (BlockHashes.new [97] 1).block_size ∧
    (∃ r, (BlockHashes.new [97] 1).diff_and_update [98] = some r) :=
  ⟨by decide, by decide,
    c10_termination.1 (Window.mk [] [] 1 0 2 []) (by decide) (by decide),
    by decide,
    c10_termination.2 (BlockHashes.new [97] 1) [98] (by decide)⟩

end Rdiff

